import Mathlib

/-!
Verification of the in-memory quad store in src/src/sord.c (an RDF quad
store with up to twelve permutation indexes, reference-counted interned
nodes, and a pattern matcher over sorted GSequence containers).

The development is a shallow embedding in two layers.

The shared layer models quads as 4-tuples of node references.  A node
reference is a natural number; 0 is the C NULL pointer (used as the
wildcard in search patterns and as the default graph).  GSequence indexes
are sorted lists; GLib iterators are positions (a Nat equal to the list
length is the end iterator).  GLib g_sequence_search returns the position
where the needle would be inserted, to the right of all elements that
compare less than or equal to it (gsequence.c walks towards the bigger
nodes on ties and finally steps one to the right of the last element
comparing less or equal); on the sorted sequences Sord maintains, this is
the position of the first element comparing strictly greater.
g_sequence_iter_prev at the begin iterator returns the begin iterator
itself, which the Nat truncated subtraction below mirrors.

The M layer (pattern matcher, iterators, index selection) abstracts live
nodes as positive naturals numbered consistently with sord_node_compare:
interning makes content equality coincide with pointer equality, and
sord_id_compare orders NULL below every live node and distinct live nodes
by sord_node_compare, so a single positive natural faithfully stands for
one interned node, and sord_id_compare becomes subtraction of the numbers.

The W layer models the world of src/src/sord.c in full: node records with
reference counts, the three interning tables, and the model operations
sord_add and sord_remove including their reference-count updates, with
sord_node_compare reading node contents (kind, buffer bytes, datatype,
language) exactly as the source does.

Names follow the source where Lean allows; n_prefix is rendered nPfx and
the end flag of an iterator is rendered fin because of Lean keywords.
-/

namespace Sord

/-- A quad of node references, in the component order of whatever container
holds it (standard S P O G order for pattern-level quads, index order for
keys stored in an index).  Component value 0 is the C NULL pointer. -/
structure Tup4 where
  c0 : Nat
  c1 : Nat
  c2 : Nat
  c3 : Nat
deriving DecidableEq, Repr

/-- Array indexing tup[i] of the C SordQuad (out-of-range reads never occur
in the source; they are given the harmless value 0 here). -/
def comp (t : Tup4) : Nat → Nat
  | 0 => t.c0
  | 1 => t.c1
  | 2 => t.c2
  | 3 => t.c3
  | _ + 4 => 0

theorem Tup4.eq_iff {x y : Tup4} :
    x = y ↔ x.c0 = y.c0 ∧ x.c1 = y.c1 ∧ x.c2 = y.c2 ∧ x.c3 = y.c3 := by
  cases x; cases y; simp

/-- The orderings table of sord.c: for order o, orderings o i is the
standard-position of the component stored at index-position i (from most
to least significant).  Orders 0..5 are SPO SOP OPS OSP PSO POS, orders
6..11 are the graph-prefixed GSPO GSOP GOPS GOSP GPSO GPOS. -/
def orderingsList : List (List Nat) :=
  [[0, 1, 2, 3], [0, 2, 1, 3], [2, 1, 0, 3], [2, 0, 1, 3], [1, 0, 2, 3], [1, 2, 0, 3],
   [3, 0, 1, 2], [3, 0, 2, 1], [3, 2, 1, 0], [3, 2, 0, 1], [3, 1, 0, 2], [3, 1, 2, 0]]

def orderings (ord i : Nat) : Nat :=
  ((orderingsList.getD ord []).getD i 0)

/-- Permute a standard-order quad into the key layout of index order ord
(key[i] = tup[ordering[i]], as in sord_add_to_index and sord_iter_new). -/
def permute (ord : Nat) (t : Tup4) : Tup4 :=
  ⟨comp t (orderings ord 0), comp t (orderings ord 1),
   comp t (orderings ord 2), comp t (orderings ord 3)⟩

/-- Inverse position lookup: the index-position that holds standard
component j under order ord. -/
def invOrd (ord j : Nat) : Nat :=
  if orderings ord 0 = j then 0
  else if orderings ord 1 = j then 1
  else if orderings ord 2 = j then 2
  else 3

/-- Project an index key back to standard order, as sord_iter_get does with
id[iter->ordering[i]] = key[i]. -/
def unpermute (ord : Nat) (k : Tup4) : Tup4 :=
  ⟨comp k (invOrd ord 0), comp k (invOrd ord 1),
   comp k (invOrd ord 2), comp k (invOrd ord 3)⟩

theorem unpermute_permute {ord : Nat} (h : ord < 12) (t : Tup4) :
    unpermute ord (permute ord t) = t := by
  interval_cases ord <;> rfl

theorem permute_inj {ord : Nat} (h : ord < 12) {a b : Tup4}
    (hab : permute ord a = permute ord b) : a = b := by
  have := congrArg (unpermute ord) hab
  rwa [unpermute_permute h, unpermute_permute h] at this

/-- sord_id_match: two node references are equivalent, or one is a
wildcard. -/
def sord_id_match (a b : Nat) : Bool :=
  a == 0 || b == 0 || a == b

/-- sord_quad_match_inline: componentwise wildcard-tolerant match. -/
def sord_quad_match (x y : Tup4) : Bool :=
  sord_id_match x.c0 y.c0 && sord_id_match x.c1 y.c1 &&
  sord_id_match x.c2 y.c2 && sord_id_match x.c3 y.c3

theorem sord_id_match_comm (a b : Nat) : sord_id_match a b = sord_id_match b a := by
  rw [Bool.eq_iff_iff]
  simp only [sord_id_match, Bool.or_eq_true, beq_iff_eq]
  omega

theorem sord_quad_match_comm (x y : Tup4) :
    sord_quad_match x y = sord_quad_match y x := by
  unfold sord_quad_match
  rw [sord_id_match_comm x.c0, sord_id_match_comm x.c1, sord_id_match_comm x.c2,
    sord_id_match_comm x.c3]

/-- GLib g_sequence_search on a sorted sequence: the insertion position to
the right of every element comparing less than or equal to the key. -/
def gseq_search (cmp : Tup4 → Tup4 → Int) (l : List Tup4) (key : Tup4) : Nat :=
  (l.takeWhile (fun e => decide (cmp e key ≤ 0))).length

/-- The backward scan at the end of index_lower_bound_iter: while not at
the begin iterator, if the current element matches and its predecessor
also matches, step to the predecessor; otherwise stop. -/
def index_lower_bound_scan (l : List Tup4) (key : Tup4) : Nat → Nat
  | 0 => 0
  | i + 1 =>
    if sord_quad_match key (l.getD (i + 1) ⟨0, 0, 0, 0⟩)
        && sord_quad_match key (l.getD i ⟨0, 0, 0, 0⟩) then
      index_lower_bound_scan l key i
    else i + 1

/-- index_lower_bound_iter of sord.c: adjust the g_sequence_search position
towards the leftmost wildcard-matching element.  Position l.length is the
end iterator; g_sequence_iter_prev of the begin iterator is itself. -/
def index_lower_bound_iter (l : List Tup4) (i : Nat) (key : Tup4) : Nat :=
  if i = 0 then i
  else
    let i := if i = l.length then i - 1 else i
    if ¬ sord_quad_match key (l.getD i ⟨0, 0, 0, 0⟩) then
      if ¬ sord_quad_match key (l.getD (i - 1) ⟨0, 0, 0, 0⟩) then i
      else index_lower_bound_scan l key (i - 1)
    else index_lower_bound_scan l key i

/-- index_lower_bound of sord.c: g_sequence_search followed by the leftward
adjustment. -/
def index_lower_bound (cmp : Tup4 → Tup4 → Int) (l : List Tup4) (key : Tup4) : Nat :=
  index_lower_bound_iter l (gseq_search cmp l key) key

/-- The store: one optional sorted key list per order (indices has length
12 in every state the source builds), and the quad count. -/
structure SordModel where
  indices : List (Option (List Tup4))
  n_quads : Nat
deriving DecidableEq, Repr

def getIndex (m : SordModel) (ord : Nat) : Option (List Tup4) :=
  (m.indices.getD ord none)

/-- sord_new: materialize the triple orders selected by the mask bits, the
matching graph orders when graphs is set, and always the SPO index. -/
def sord_new (mask : Nat) (graphs : Bool) : SordModel :=
  let base := (List.range 6).map fun i =>
    if mask.testBit i then some ([] : List Tup4) else none
  let gpart := (List.range 6).map fun i =>
    if mask.testBit i && graphs then some ([] : List Tup4) else none
  let idx := base ++ gpart
  let idx := if (idx.getD 0 none).isSome then idx else idx.set 0 (some [])
  ⟨idx, 0⟩

/-- The search / iteration modes of sord.c. -/
inductive SearchMode where
  | all
  | single
  | range
  | filterRange
  | filterAll
deriving DecidableEq, Repr

/-- The outputs of sord_best_index: chosen order, mode, and range prefix
length (n_prefix in the source). -/
structure BestIdx where
  order : Nat
  mode : SearchMode
  nPfx : Nat
deriving DecidableEq, Repr

/-- sord_has_index: when graph search is requested, first switch the
candidate to its graph-prefixed order and grow the prefix, then test
whether the index exists.  Returns the (possibly rewritten) order and
prefix together with the test result, mirroring the in-place updates of
the C version. -/
def sord_has_index (m : SordModel) (order nPfx : Nat) (graphSearch : Bool) :
    Nat × Nat × Bool :=
  let order := if graphSearch then order + 6 else order
  let nPfx := if graphSearch then nPfx + 1 else nPfx
  (order, nPfx, (getIndex m order).isSome)

/-- The probe chain of sord_best_index for signatures whose switch case
has no FILTER_RANGE fallback (exactly one of S, P, O bound): try the two
good orders, then fall back.  The n_prefix variable is threaded through
exactly as the C code mutates it, so each probe under graph search adds
one more to it (projection .2.1 of a probe is the n_prefix it leaves
behind, projection .2.2 its test result). -/
def rangeOnly (m : SordModel) (gs : Bool) (g0 g1 np : Nat) : BestIdx :=
  let p0 := sord_has_index m g0 np gs
  if p0.2.2 then ⟨p0.1, .range, p0.2.1⟩
  else
    let p1 := sord_has_index m g1 p0.2.1 gs
    if p1.2.2 then ⟨p1.1, .range, p1.2.1⟩
    else if gs then ⟨6, .filterRange, 1⟩
    else ⟨0, .filterAll, p1.2.1⟩

/-- The probe chain of sord_best_index for signatures with a FILTER_RANGE
fallback (two of S, P, O bound): the two good orders, then the two filter
orders with n_prefix reset to 1, then the final fallback. -/
def rangeFilter (m : SordModel) (gs : Bool) (g0 g1 np f0 f1 : Nat) : BestIdx :=
  let p0 := sord_has_index m g0 np gs
  if p0.2.2 then ⟨p0.1, .range, p0.2.1⟩
  else
    let p1 := sord_has_index m g1 p0.2.1 gs
    if p1.2.2 then ⟨p1.1, .range, p1.2.1⟩
    else
      let q0 := sord_has_index m f0 1 gs
      if q0.2.2 then ⟨q0.1, .filterRange, q0.2.1⟩
      else
        let q1 := sord_has_index m f1 q0.2.1 gs
        if q1.2.2 then ⟨q1.1, .filterRange, q1.2.1⟩
        else if gs then ⟨6, .filterRange, 1⟩
        else ⟨0, .filterAll, q1.2.1⟩

/-- sord_best_index: the switch on the signature of bound S, P, O
components (the hexadecimal encoding 0x101 of the source is 257 here and
so on; exactly the eight listed values arise), dispatching to the probe
chains with the good and fallback orders of the corresponding C switch
cases. -/
def sord_best_index (m : SordModel) (pat : Tup4) : BestIdx :=
  let gs := pat.c3 ≠ 0
  let sig : Nat :=
    (if pat.c0 ≠ 0 then 256 else 0) + (if pat.c1 ≠ 0 then 16 else 0) +
      (if pat.c2 ≠ 0 then 1 else 0)
  if sig = 0 then ⟨if gs then 6 else 0, .all, 0⟩
  else if sig = 273 then ⟨if gs then 6 else 0, .single, 0⟩
  else if sig = 1 then rangeOnly m gs 2 3 1
  else if sig = 16 then rangeOnly m gs 5 4 1
  else if sig = 256 then rangeOnly m gs 0 1 1
  else if sig = 17 then rangeFilter m gs 2 5 2 3 4
  else if sig = 257 then rangeFilter m gs 1 3 2 0 2
  else rangeFilter m gs 0 4 2 1 5

/-! ## The M layer: pattern matcher and iterators over abstract nodes -/

namespace M

/-- sord_id_compare under the M abstraction: both the pointer-subtraction
branch (equal or NULL operands) and the sord_node_compare branch reduce to
subtraction of the node numbers, because live nodes are numbered in
sord_node_compare order and 0 (NULL) is below all of them. -/
def sord_id_compare (a b : Nat) : Int := (a : Int) - (b : Int)

/-- sord_quad_compare: lexicographic comparison of the four components. -/
def sord_quad_compare (x y : Tup4) : Int :=
  let d0 := sord_id_compare x.c0 y.c0
  if d0 ≠ 0 then d0
  else
    let d1 := sord_id_compare x.c1 y.c1
    if d1 ≠ 0 then d1
    else
      let d2 := sord_id_compare x.c2 y.c2
      if d2 ≠ 0 then d2
      else sord_id_compare x.c3 y.c3

/-- The leading-three-components comparison of sord_iter_forward. -/
def first3eq (a b : Tup4) : Bool :=
  a.c0 == b.c0 && a.c1 == b.c1 && a.c2 == b.c2

/-- The iterator of sord.c.  idx is the contents of the GSequence the
cursor walks, cur the cursor position (idx.length is the end iterator),
pat the pattern permuted into index order, ordering the index order id,
fin the end flag (named end in the source), nPfx the range prefix length
(n_prefix in the source), and skipGraphs the triple-index deduplication
flag. -/
structure SordIter where
  idx : List Tup4
  pat : Tup4
  ordering : Nat
  mode : SearchMode
  nPfx : Nat
  cur : Nat
  fin : Bool
  skipGraphs : Bool
deriving DecidableEq, Repr

def atEnd (it : SordIter) : Bool := it.idx.length ≤ it.cur

/-- The scan inside sord_iter_forward when skip_graphs is set: advance
until the leading three components differ from the initial key. -/
def skipFwd (l : List Tup4) (ini : Tup4) : Nat → Nat → Nat
  | 0, i => i
  | fuel + 1, i =>
    if i < l.length then
      if first3eq (l.getD i ⟨0, 0, 0, 0⟩) ini then skipFwd l ini fuel (i + 1) else i
    else i

/-- sord_iter_forward: step the cursor, deduplicating graph-variants when
skip_graphs is set. -/
def forwardIt (it : SordIter) : SordIter :=
  if ¬ it.skipGraphs then { it with cur := it.cur + 1 }
  else
    let ini := it.idx.getD it.cur ⟨0, 0, 0, 0⟩
    { it with cur := skipFwd it.idx ini (it.idx.length - it.cur) (it.cur + 1) }

/-- The prefix check of the RANGE mode and of seek_match_range: true when
some of the first nPfx components of the key fails to id-match the
pattern. -/
def pfxMismatch (key pat : Tup4) (nPfx : Nat) : Bool :=
  (List.range nPfx).any fun i => ! sord_id_match (comp key i) (comp pat i)

/-- sord_iter_seek_match (FILTER_ALL): seek forward to the first full
match, setting the end flag at the end of the index.  The fuel argument
only bounds the recursion; callers pass enough for the whole index. -/
def seekMatch : Nat → SordIter → SordIter
  | 0, it => { it with fin := true }
  | fuel + 1, it =>
    if atEnd it then { it with fin := true }
    else if sord_quad_match (it.idx.getD it.cur ⟨0, 0, 0, 0⟩) it.pat then
      { it with fin := false }
    else seekMatch fuel (forwardIt it)

/-- sord_iter_seek_match_range (FILTER_RANGE): seek forward to the first
full match, stopping with the end flag set when the range prefix stops
matching or the index ends. -/
def seekMatchRange : Nat → SordIter → SordIter
  | 0, it => it
  | fuel + 1, it =>
    if it.fin then it
    else if atEnd it then { it with fin := true }
    else
      let key := it.idx.getD it.cur ⟨0, 0, 0, 0⟩
      if sord_quad_match key it.pat then it
      else if pfxMismatch key it.pat it.nPfx then { it with fin := true }
      else
        let it1 := forwardIt it
        if atEnd it1 then { it1 with fin := true }
        else seekMatchRange fuel it1

/-- sord_iter_new: build the iterator (pattern permuted into index order,
skip_graphs set for non-graph orders) and run the initial seek for the
filter modes. -/
def sord_iter_new (db : List Tup4) (pat : Tup4) (order : Nat)
    (mode : SearchMode) (nPfx : Nat) (cur : Nat) : SordIter :=
  let base : SordIter :=
    ⟨db, permute order pat, order, mode, nPfx, cur, false, decide (order < 6)⟩
  match mode with
  | .filterRange => seekMatchRange (db.length + 1) base
  | .filterAll => seekMatch (db.length + 1) base
  | _ => base

/-- sord_iter_get: project the cursor key back to standard order. -/
def sord_iter_get (it : SordIter) : Tup4 :=
  unpermute it.ordering (it.idx.getD it.cur ⟨0, 0, 0, 0⟩)

/-- sord_iter_next. -/
def sord_iter_next (it : SordIter) : SordIter :=
  if it.fin then it
  else
    let it1 := forwardIt it
    if atEnd it1 then { it1 with fin := true }
    else
      match it1.mode with
      | .all => it1
      | .single => { it1 with fin := true }
      | .range =>
        if pfxMismatch (it1.idx.getD it1.cur ⟨0, 0, 0, 0⟩) it1.pat it1.nPfx then
          { it1 with fin := true }
        else it1
      | .filterRange => seekMatchRange (it1.idx.length + 1) it1
      | .filterAll => seekMatch (it1.idx.length + 1) it1

/-- sord_begin: a full scan of the SPO index (NULL is returned for an
empty store, and when SPO is missing, which sord_new never produces). -/
def sord_begin (m : SordModel) : Option SordIter :=
  if m.n_quads = 0 then none
  else
    match getIndex m 0 with
    | none => none
    | some db => some (sord_iter_new db ⟨0, 0, 0, 0⟩ 0 .all 0 0)

/-- sord_find.  A missing chosen index makes the C code dereference a NULL
GSequence (a crash); that unreachable-for-triple-patterns case is modeled
as no iterator. -/
def sord_find (m : SordModel) (pat : Tup4) : Option SordIter :=
  if pat.c0 = 0 ∧ pat.c1 = 0 ∧ pat.c2 = 0 ∧ pat.c3 = 0 then sord_begin m
  else
    let bi := sord_best_index m pat
    let a := comp pat (orderings bi.order 0)
    let b := comp pat (orderings bi.order 1)
    let c := comp pat (orderings bi.order 2)
    let d := comp pat (orderings bi.order 3)
    let mode := if a ≠ 0 ∧ b ≠ 0 ∧ c ≠ 0 ∧ d ≠ 0 then SearchMode.single else bi.mode
    let key : Tup4 := ⟨a, b, c, d⟩
    match getIndex m bi.order with
    | none => none
    | some db =>
      let cur := index_lower_bound sord_quad_compare db key
      if cur = db.length then none
      else if (mode = .range ∨ mode = .single)
          ∧ ¬ sord_quad_match key (db.getD cur ⟨0, 0, 0, 0⟩) then none
      else some (sord_iter_new db pat bi.order mode bi.nPfx cur)

/-- Drain an iterator: the list of quads a caller of sord_iter_get and
sord_iter_next observes.  Fuel bounds the loop; idx.length + 1 is enough
because the cursor strictly advances. -/
def iterCollect : Nat → SordIter → List Tup4
  | 0, _ => []
  | fuel + 1, it =>
    if it.fin then [] else sord_iter_get it :: iterCollect fuel (sord_iter_next it)

/-- All results of sord_find, in iteration order. -/
def sordFindList (m : SordModel) (pat : Tup4) : List Tup4 :=
  match sord_find m pat with
  | none => []
  | some it => iterCollect (it.idx.length + 1) it

/-- The stored quads: the contents of the mandatory SPO index (whose keys
are in standard order). -/
def storedQuads (m : SordModel) : List Tup4 :=
  match getIndex m 0 with
  | some l => l
  | none => []

/-- The match relation of the claims on sord_find: each pattern component
is NULL or equal to the corresponding quad component. -/
def patMatches (p q : Tup4) : Bool :=
  (p.c0 == 0 || p.c0 == q.c0) && (p.c1 == 0 || p.c1 == q.c1) &&
  (p.c2 == 0 || p.c2 == q.c2) && (p.c3 == 0 || p.c3 == q.c3)

/-- Strictly ascending in the index comparator: the sort order every
GSequence of the store maintains (strict because the store holds no
duplicate keys). -/
def StrictSorted (l : List Tup4) : Prop :=
  l.Pairwise (fun a b => sord_quad_compare a b < 0)

/-- Well-formedness of a model state, as established by sord_new and
preserved by correct insertions: twelve index slots, SPO present, the
quad count agreeing with SPO, subject, predicate and object of every
stored quad non-NULL, and every materialized index a strictly sorted
copy of the stored quads permuted into its order. -/
instance (l : List Tup4) : Decidable (StrictSorted l) :=
  List.instDecidablePairwise l

/-- The per-index part of well-formedness: a materialized index is a
strictly sorted copy of the stored quads permuted into its order. -/
abbrev indexOK (m : SordModel) (i : Nat) : Prop :=
  (getIndex m i).isSome →
    StrictSorted ((getIndex m i).getD []) ∧
    (∀ k ∈ (getIndex m i).getD [], ∃ q ∈ storedQuads m, k = permute i q) ∧
    (∀ q ∈ storedQuads m, permute i q ∈ (getIndex m i).getD [])

abbrev WFModel (m : SordModel) : Prop :=
  m.indices.length = 12 ∧
  (getIndex m 0).isSome ∧
  m.n_quads = (storedQuads m).length ∧
  (∀ q ∈ storedQuads m, q.c0 ≠ 0 ∧ q.c1 ≠ 0 ∧ q.c2 ≠ 0) ∧
  (∀ i < 12, indexOK m i)

theorem indexOK_some {m : SordModel} {i : Nat} {l : List Tup4}
    (h : getIndex m i = some l) (hok : indexOK m i) :
    StrictSorted l ∧
    (∀ k ∈ l, ∃ q ∈ storedQuads m, k = permute i q) ∧
    (∀ q ∈ storedQuads m, permute i q ∈ l) := by
  have := hok (by simp [h])
  simpa [h] using this

/-- All stored quads in the default graph: the regime in which the
skip_graphs deduplication of triple indexes cannot discard results. -/
abbrev DefaultGraphOnly (m : SordModel) : Prop :=
  ∀ q ∈ storedQuads m, q.c3 = 0

/-! ### The order induced by sord_quad_compare -/

theorem qc_lt_iff {x y : Tup4} : sord_quad_compare x y < 0 ↔
    x.c0 < y.c0 ∨ (x.c0 = y.c0 ∧ (x.c1 < y.c1 ∨ (x.c1 = y.c1 ∧
      (x.c2 < y.c2 ∨ (x.c2 = y.c2 ∧ x.c3 < y.c3))))) := by
  unfold sord_quad_compare sord_id_compare
  dsimp only
  split_ifs <;> omega

theorem qc_eq_iff {x y : Tup4} : sord_quad_compare x y = 0 ↔ x = y := by
  rw [Tup4.eq_iff]
  unfold sord_quad_compare sord_id_compare
  dsimp only
  split_ifs <;> omega

theorem qc_neg_iff {x y : Tup4} :
    sord_quad_compare x y < 0 ↔ 0 < sord_quad_compare y x := by
  unfold sord_quad_compare sord_id_compare
  dsimp only
  split_ifs <;> omega

theorem qc_lt_trans {x y z : Tup4} (hxy : sord_quad_compare x y < 0)
    (hyz : sord_quad_compare y z < 0) : sord_quad_compare x z < 0 := by
  rw [qc_lt_iff] at *
  omega

theorem qc_trichotomy (x y : Tup4) :
    sord_quad_compare x y < 0 ∨ x = y ∨ 0 < sord_quad_compare x y := by
  rcases lt_trichotomy (sord_quad_compare x y) 0 with h | h | h
  · exact Or.inl h
  · exact Or.inr (Or.inl (qc_eq_iff.mp h))
  · exact Or.inr (Or.inr h)

/-- Shorthand for the element (g_sequence_get) at a cursor position. -/
def elt (l : List Tup4) (i : Nat) : Tup4 := l.getD i ⟨0, 0, 0, 0⟩

theorem elt_mem {l : List Tup4} {i : Nat} (h : i < l.length) : elt l i ∈ l := by
  unfold elt
  rw [List.getD_eq_getElem l _ h]
  exact List.getElem_mem h

/-- Strict sortedness in positional form. -/
theorem sorted_lt {l : List Tup4} (hs : StrictSorted l) {i j : Nat}
    (hij : i < j) (hj : j < l.length) :
    sord_quad_compare (elt l i) (elt l j) < 0 := by
  have hi : i < l.length := lt_trans hij hj
  unfold elt
  rw [List.getD_eq_getElem l _ hi, List.getD_eq_getElem l _ hj]
  exact List.pairwise_iff_getElem.mp hs i j hi hj hij

theorem sorted_nodup {l : List Tup4} (hs : StrictSorted l) : l.Nodup := by
  apply List.Pairwise.imp _ hs
  intro a b hab
  intro hEq
  rw [hEq] at hab
  have : sord_quad_compare b b = 0 := qc_eq_iff.mpr rfl
  omega

/-! ### g_sequence_search on sorted sequences -/

theorem gseq_search_cons (cmp : Tup4 → Tup4 → Int) (a : Tup4) (t : List Tup4)
    (k : Tup4) :
    gseq_search cmp (a :: t) k =
      if cmp a k ≤ 0 then gseq_search cmp t k + 1 else 0 := by
  unfold gseq_search
  by_cases h : cmp a k ≤ 0 <;> simp [List.takeWhile_cons, h]

theorem gseq_search_le_length (cmp : Tup4 → Tup4 → Int) (l : List Tup4)
    (k : Tup4) : gseq_search cmp l k ≤ l.length := by
  induction l with
  | nil => exact Nat.le_refl 0
  | cons a t ih =>
    rw [gseq_search_cons]
    split_ifs <;> simp <;> omega

theorem gseq_search_spec1 (cmp : Tup4 → Tup4 → Int) (l : List Tup4) (k : Tup4) :
    ∀ j < gseq_search cmp l k, cmp (elt l j) k ≤ 0 := by
  induction l with
  | nil => intro j hj; simp [gseq_search] at hj
  | cons a t ih =>
    intro j hj
    rw [gseq_search_cons] at hj
    split_ifs at hj with ha
    · rcases j with _ | j
      · exact ha
      · exact ih j (by omega)
    · omega

theorem gseq_search_spec2 (cmp : Tup4 → Tup4 → Int) (l : List Tup4) (k : Tup4)
    (h : gseq_search cmp l k < l.length) :
    0 < cmp (elt l (gseq_search cmp l k)) k := by
  induction l with
  | nil => simp at h
  | cons a t ih =>
    rw [gseq_search_cons] at h ⊢
    split_ifs at h ⊢ with ha
    · simp only [List.length_cons] at h
      exact ih (by omega)
    · simpa [elt] using by omega

theorem getD_eq_elt (l : List Tup4) (i : Nat) :
    l.getD i ⟨0, 0, 0, 0⟩ = elt l i := rfl

/-! ### Matching against a key whose bound components form a prefix -/

/-- A key component profile: non-NULL exactly on the first n positions. -/
theorem match_of_prefix {key e : Tup4} {n : Nat}
    (hk2 : ∀ i, n ≤ i → comp key i = 0)
    (hpre : ∀ i < n, comp e i = comp key i) :
    sord_quad_match key e = true := by
  have f : ∀ i, sord_id_match (comp key i) (comp e i) = true := by
    intro i
    rcases Nat.lt_or_ge i n with h | h
    · have he := hpre i h
      simp [sord_id_match, he]
    · have hk := hk2 i h
      simp [sord_id_match, hk]
  have f0 : sord_id_match key.c0 e.c0 = true := f 0
  have f1 : sord_id_match key.c1 e.c1 = true := f 1
  have f2 : sord_id_match key.c2 e.c2 = true := f 2
  have f3 : sord_id_match key.c3 e.c3 = true := f 3
  simp only [sord_quad_match, Bool.and_eq_true]
  exact ⟨⟨⟨f0, f1⟩, f2⟩, f3⟩

theorem prefix_of_match {key e : Tup4} {n : Nat}
    (hk1 : ∀ i < n, comp key i ≠ 0)
    (he : ∀ i < n, comp e i ≠ 0)
    (hm : sord_quad_match key e = true) :
    ∀ i < n, comp e i = comp key i := by
  intro i hi
  simp only [sord_quad_match, Bool.and_eq_true, sord_id_match, Bool.or_eq_true,
    beq_iff_eq] at hm
  obtain ⟨⟨⟨m0, m1⟩, m2⟩, m3⟩ := hm
  rcases i with _ | _ | _ | _ | i
  · have a1 : key.c0 ≠ 0 := hk1 0 hi
    have a2 : e.c0 ≠ 0 := he 0 hi
    show e.c0 = key.c0
    omega
  · have a1 : key.c1 ≠ 0 := hk1 1 hi
    have a2 : e.c1 ≠ 0 := he 1 hi
    show e.c1 = key.c1
    omega
  · have a1 : key.c2 ≠ 0 := hk1 2 hi
    have a2 : e.c2 ≠ 0 := he 2 hi
    show e.c2 = key.c2
    omega
  · have a1 : key.c3 ≠ 0 := hk1 3 hi
    have a2 : e.c3 ≠ 0 := he 3 hi
    show e.c3 = key.c3
    omega
  · rfl

/-- A matching element never compares below a prefix-shaped key. -/
theorem match_ge {key e : Tup4} {n : Nat}
    (hk1 : ∀ i < n, comp key i ≠ 0)
    (hk2 : ∀ i, n ≤ i → comp key i = 0)
    (he : ∀ i < n, comp e i ≠ 0)
    (hm : sord_quad_match key e = true) :
    0 ≤ sord_quad_compare e key := by
  have hpre := prefix_of_match hk1 he hm
  have p0 : 0 < n → e.c0 = key.c0 := fun h => hpre 0 h
  have p1 : 1 < n → e.c1 = key.c1 := fun h => hpre 1 h
  have p2 : 2 < n → e.c2 = key.c2 := fun h => hpre 2 h
  have p3 : 3 < n → e.c3 = key.c3 := fun h => hpre 3 h
  have k0 : n ≤ 0 → key.c0 = 0 := fun h => hk2 0 h
  have k1 : n ≤ 1 → key.c1 = 0 := fun h => hk2 1 h
  have k2 : n ≤ 2 → key.c2 = 0 := fun h => hk2 2 h
  have k3 : n ≤ 3 → key.c3 = 0 := fun h => hk2 3 h
  by_contra hlt
  push_neg at hlt
  rw [qc_lt_iff] at hlt
  omega

/-- Sandwich: between the key and a matching element (on the prefix
profile) every element shares the key prefix. -/
theorem match_sandwich {key a e : Tup4} {n : Nat}
    (hk2 : ∀ i, n ≤ i → comp key i = 0)
    (ha : ∀ i < n, comp a i = comp key i)
    (hge : 0 ≤ sord_quad_compare e key)
    (hle : sord_quad_compare e a ≤ 0) :
    ∀ i < n, comp e i = comp key i := by
  rcases lt_or_eq_of_le hle with hlt | heq
  · intro i hi
    have a0 : 0 < n → a.c0 = key.c0 := fun h => ha 0 h
    have a1 : 1 < n → a.c1 = key.c1 := fun h => ha 1 h
    have a2 : 2 < n → a.c2 = key.c2 := fun h => ha 2 h
    have a3 : 3 < n → a.c3 = key.c3 := fun h => ha 3 h
    have k0 : n ≤ 0 → key.c0 = 0 := fun h => hk2 0 h
    have k1 : n ≤ 1 → key.c1 = 0 := fun h => hk2 1 h
    have k2 : n ≤ 2 → key.c2 = 0 := fun h => hk2 2 h
    have k3 : n ≤ 3 → key.c3 = 0 := fun h => hk2 3 h
    have hge' : ¬ sord_quad_compare e key < 0 := not_lt.mpr hge
    rw [qc_lt_iff] at hge' hlt
    rcases i with _ | _ | _ | _ | i
    · show e.c0 = key.c0
      omega
    · show e.c1 = key.c1
      omega
    · show e.c2 = key.c2
      omega
    · show e.c3 = key.c3
      omega
    · rfl
  · have heq' : e = a := qc_eq_iff.mp heq
    intro i hi
    rw [heq']
    exact ha i hi

/-- Every element strictly before the leftmost match compares below the
key. -/
theorem lt_key_of_lt_leftmost {l : List Tup4} {key : Tup4} {n j : Nat}
    (hs : StrictSorted l)
    (hk1 : ∀ i < n, comp key i ≠ 0)
    (hk2 : ∀ i, n ≤ i → comp key i = 0)
    (he : ∀ e ∈ l, ∀ i < n, comp e i ≠ 0)
    (hj : j < l.length)
    (hmj : sord_quad_match key (elt l j) = true)
    (hmin : ∀ j' < j, ¬ sord_quad_match key (elt l j') = true) :
    ∀ i < j, sord_quad_compare (elt l i) key < 0 := by
  intro i hij
  by_contra hge
  push_neg at hge
  apply hmin i hij
  have hprej : ∀ t < n, comp (elt l j) t = comp key t :=
    prefix_of_match hk1 (he _ (elt_mem hj)) hmj
  have hlt : sord_quad_compare (elt l i) (elt l j) < 0 := sorted_lt hs hij hj
  have hpre := match_sandwich hk2 hprej hge (le_of_lt hlt)
  exact match_of_prefix hk2 hpre

/-- The g_sequence_search position relative to the leftmost match: right
after it when it is an exact hit, at it otherwise. -/
theorem ub_of_leftmost {l : List Tup4} {key : Tup4} {n j : Nat}
    (hs : StrictSorted l)
    (hk1 : ∀ i < n, comp key i ≠ 0)
    (hk2 : ∀ i, n ≤ i → comp key i = 0)
    (he : ∀ e ∈ l, ∀ i < n, comp e i ≠ 0)
    (hj : j < l.length)
    (hmj : sord_quad_match key (elt l j) = true)
    (hmin : ∀ j' < j, ¬ sord_quad_match key (elt l j') = true) :
    (elt l j = key → gseq_search sord_quad_compare l key = j + 1) ∧
    (elt l j ≠ key → gseq_search sord_quad_compare l key = j) := by
  have hlow := lt_key_of_lt_leftmost hs hk1 hk2 he hj hmj hmin
  have hub_le := gseq_search_le_length sord_quad_compare l key
  have hub_ge : j ≤ gseq_search sord_quad_compare l key := by
    by_contra hu
    push_neg at hu
    have h2 := gseq_search_spec2 sord_quad_compare l key (by omega)
    have h3 := hlow _ hu
    omega
  constructor
  · intro hAeq
    have hge1 : j + 1 ≤ gseq_search sord_quad_compare l key := by
      rcases Nat.lt_or_ge j (gseq_search sord_quad_compare l key) with h | h
      · omega
      · have hje : j = gseq_search sord_quad_compare l key := by omega
        have h2 := gseq_search_spec2 sord_quad_compare l key (by omega)
        rw [← hje, hAeq] at h2
        have : sord_quad_compare key key = 0 := qc_eq_iff.mpr rfl
        omega
    have hle1 : gseq_search sord_quad_compare l key ≤ j + 1 := by
      by_contra hu
      push_neg at hu
      have hlen : j + 1 < l.length := by omega
      have h1 := gseq_search_spec1 sord_quad_compare l key (j + 1) hu
      have h4 : sord_quad_compare (elt l j) (elt l (j + 1)) < 0 :=
        sorted_lt hs (by omega) hlen
      rw [hAeq] at h4
      rw [qc_neg_iff] at h4
      omega
    omega
  · intro hAne
    have hgt : 0 < sord_quad_compare (elt l j) key := by
      have hge := match_ge hk1 hk2 (he _ (elt_mem hj)) hmj
      have hne0 : sord_quad_compare (elt l j) key ≠ 0 := by
        intro h0
        exact hAne (qc_eq_iff.mp h0)
      omega
    have hle : gseq_search sord_quad_compare l key ≤ j := by
      by_contra hu
      push_neg at hu
      have h1 := gseq_search_spec1 sord_quad_compare l key j hu
      omega
    omega

/-! ### Evaluating index_lower_bound_iter -/

theorem scan_stops_at_leftmost {l : List Tup4} {key : Tup4} {j : Nat}
    (hmin : ∀ j' < j, ¬ sord_quad_match key (elt l j') = true) :
    index_lower_bound_scan l key j = j := by
  cases j with
  | zero => rfl
  | succ i =>
    unfold index_lower_bound_scan
    rw [getD_eq_elt, getD_eq_elt]
    have hfalse : sord_quad_match key (elt l i) = false := by
      simpa using hmin i (by omega)
    rw [hfalse, Bool.and_false]
    rw [if_neg (by simp : ¬ (false = true))]

theorem scan_from_succ {l : List Tup4} {key : Tup4} {j : Nat}
    (hm1 : sord_quad_match key (elt l (j + 1)) = true)
    (hmj : sord_quad_match key (elt l j) = true)
    (hmin : ∀ j' < j, ¬ sord_quad_match key (elt l j') = true) :
    index_lower_bound_scan l key (j + 1) = j := by
  unfold index_lower_bound_scan
  rw [getD_eq_elt, getD_eq_elt, hm1, hmj]
  simp only [Bool.and_self, if_true]
  exact scan_stops_at_leftmost hmin

theorem lb_iter_zero (l : List Tup4) (key : Tup4) :
    index_lower_bound_iter l 0 key = 0 := by
  unfold index_lower_bound_iter
  simp

theorem lb_iter_match {l : List Tup4} {key : Tup4} {i : Nat}
    (h0 : i ≠ 0) (hne : i ≠ l.length)
    (hm : sord_quad_match key (elt l i) = true) :
    index_lower_bound_iter l i key = index_lower_bound_scan l key i := by
  unfold index_lower_bound_iter
  rw [if_neg h0]
  simp only [if_neg hne, getD_eq_elt, hm]
  simp

theorem lb_iter_end_match {l : List Tup4} {key : Tup4} {i : Nat}
    (h0 : i ≠ 0) (hend : i = l.length)
    (hm : sord_quad_match key (elt l (i - 1)) = true) :
    index_lower_bound_iter l i key = index_lower_bound_scan l key (i - 1) := by
  unfold index_lower_bound_iter
  rw [if_neg h0]
  simp only [if_pos hend, getD_eq_elt, hm]
  simp

theorem lb_iter_nomatch_prev {l : List Tup4} {key : Tup4} {i : Nat}
    (h0 : i ≠ 0) (hne : i ≠ l.length)
    (hm : sord_quad_match key (elt l i) = false)
    (hp : sord_quad_match key (elt l (i - 1)) = true) :
    index_lower_bound_iter l i key = index_lower_bound_scan l key (i - 1) := by
  unfold index_lower_bound_iter
  rw [if_neg h0]
  simp only [if_neg hne, getD_eq_elt, hm, hp]
  simp

theorem scan_stop_pred {l : List Tup4} {key : Tup4} {j : Nat}
    (h : j = 0 ∨ sord_quad_match key (elt l (j - 1)) = false) :
    index_lower_bound_scan l key j = j := by
  cases j with
  | zero => rfl
  | succ i =>
    unfold index_lower_bound_scan
    rw [getD_eq_elt, getD_eq_elt]
    rcases h with h | h
    · omega
    · rw [(by omega : i + 1 - 1 = i)] at h
      rw [h, Bool.and_false]
      rw [if_neg (by simp : ¬ (false = true))]

theorem lb_iter_nomatch2 {l : List Tup4} {key : Tup4} {i : Nat}
    (h0 : i ≠ 0) (hne : i ≠ l.length)
    (hm : sord_quad_match key (elt l i) = false)
    (hp : sord_quad_match key (elt l (i - 1)) = false) :
    index_lower_bound_iter l i key = i := by
  unfold index_lower_bound_iter
  rw [if_neg h0]
  simp only [if_neg hne, getD_eq_elt, hm, hp]
  simp

theorem scan_le (l : List Tup4) (key : Tup4) :
    ∀ j, index_lower_bound_scan l key j ≤ j := by
  intro j
  induction j with
  | zero => exact Nat.le_refl 0
  | succ i ih =>
    unfold index_lower_bound_scan
    split
    · omega
    · exact Nat.le_refl _

theorem lb_iter_le {l : List Tup4} {key : Tup4} {i : Nat} (h : i ≤ l.length) :
    index_lower_bound_iter l i key ≤ i := by
  have s1 := scan_le l key (i - 1 - 1)
  have s2 := scan_le l key (i - 1)
  have s3 := scan_le l key i
  unfold index_lower_bound_iter
  dsimp only
  split_ifs <;> omega

theorem lb_iter_lt_len {l : List Tup4} {key : Tup4} {i : Nat}
    (hlen : 0 < l.length) (h : i ≤ l.length) :
    index_lower_bound_iter l i key < l.length := by
  have s1 := scan_le l key (i - 1 - 1)
  have s2 := scan_le l key (i - 1)
  have s3 := scan_le l key i
  unfold index_lower_bound_iter
  dsimp only
  split_ifs <;> omega

/-- The leftmost-match correctness of index_lower_bound under the
prefix-shaped key profile: the bound components of the key occupy the
positions before n, every element of the (sorted) index is non-NULL
there, and j is the leftmost matching position. -/
theorem index_lower_bound_leftmost {l : List Tup4} {key : Tup4} {n j : Nat}
    (hs : StrictSorted l)
    (hk1 : ∀ i < n, comp key i ≠ 0)
    (hk2 : ∀ i, n ≤ i → comp key i = 0)
    (he : ∀ e ∈ l, ∀ i < n, comp e i ≠ 0)
    (hj : j < l.length)
    (hmj : sord_quad_match key (elt l j) = true)
    (hmin : ∀ j' < j, ¬ sord_quad_match key (elt l j') = true) :
    index_lower_bound sord_quad_compare l key = j := by
  have hub := ub_of_leftmost hs hk1 hk2 he hj hmj hmin
  unfold index_lower_bound
  by_cases hA : elt l j = key
  · rw [hub.1 hA]
    by_cases hend : j + 1 = l.length
    · rw [lb_iter_end_match (by omega) hend (by simpa using hmj)]
      simpa using scan_stops_at_leftmost hmin
    · by_cases hm1 : sord_quad_match key (elt l (j + 1)) = true
      · rw [lb_iter_match (by omega) hend hm1]
        exact scan_from_succ hm1 hmj hmin
      · rw [lb_iter_nomatch_prev (by omega) hend
          (by simpa using hm1) (by simpa using hmj)]
        simpa using scan_stops_at_leftmost hmin
  · rw [hub.2 hA]
    rcases Nat.eq_zero_or_pos j with h0 | h0
    · rw [h0]
      exact lb_iter_zero l key
    · rw [lb_iter_match (by omega) (by omega) hmj]
      exact scan_stops_at_leftmost hmin

/-! ### The iterator in the default-graph regime -/

/-- Index shape in the amended regime: the three triple components of
every key are interned nodes and the graph component is the default
graph. -/
def Shape (l : List Tup4) : Prop :=
  ∀ e ∈ l, e.c0 ≠ 0 ∧ e.c1 ≠ 0 ∧ e.c2 ≠ 0 ∧ e.c3 = 0

theorem Shape.g0 {l : List Tup4} (h : Shape l) : ∀ e ∈ l, e.c3 = 0 :=
  fun e he => (h e he).2.2.2

theorem elt_eq_getElem {l : List Tup4} {i : Nat} (h : i < l.length) :
    elt l i = l[i] :=
  List.getD_eq_getElem l _ h

theorem collect_fin {fuel : Nat} {it : SordIter} (h : it.fin = true) :
    iterCollect fuel it = [] := by
  cases fuel <;> simp [iterCollect, h]

theorem first3eq_iff {a b : Tup4} (ha : a.c3 = 0) (hb : b.c3 = 0) :
    first3eq a b = true ↔ a = b := by
  rw [Tup4.eq_iff]
  simp only [first3eq, Bool.and_eq_true, beq_iff_eq, ha, hb]
  tauto

theorem skipFwd_stop {l : List Tup4} {ini : Tup4} {fuel i : Nat}
    (h : l.length ≤ i ∨ first3eq (elt l i) ini = false) :
    skipFwd l ini fuel i = i := by
  cases fuel with
  | zero => rfl
  | succ f =>
    unfold skipFwd
    rcases h with h | h
    · rw [if_neg (by omega)]
    · by_cases hi : i < l.length
      · rw [if_pos hi, getD_eq_elt, h]
        simp
      · rw [if_neg hi]

/-- In the default-graph regime two keys never share their leading
triple, so sord_iter_forward is a plain step. -/
theorem forward_succ {it : SordIter} (hs : StrictSorted it.idx)
    (hsh : ∀ e ∈ it.idx, e.c3 = 0) (hcur : it.cur < it.idx.length) :
    forwardIt it = { it with cur := it.cur + 1 } := by
  unfold forwardIt
  by_cases hg : it.skipGraphs = true
  · rw [if_neg (fun hnot => hnot hg)]
    have hstop : skipFwd it.idx (it.idx.getD it.cur ⟨0, 0, 0, 0⟩)
        (it.idx.length - it.cur) (it.cur + 1) = it.cur + 1 := by
      apply skipFwd_stop
      by_cases h2 : it.cur + 1 < it.idx.length
      · right
        rw [getD_eq_elt]
        rcases hb : first3eq (elt it.idx (it.cur + 1)) (elt it.idx it.cur) with _ | _
        · rfl
        · exfalso
          have heq := (first3eq_iff (hsh _ (elt_mem h2)) (hsh _ (elt_mem hcur))).mp hb
          have hlt := sorted_lt hs (show it.cur < it.cur + 1 by omega) h2
          rw [heq] at hlt
          have h0 : sord_quad_compare (elt it.idx it.cur) (elt it.idx it.cur) = 0 :=
            qc_eq_iff.mpr rfl
          omega
      · left
        omega
    dsimp only
    rw [hstop]
  · rw [if_pos hg]

/-- Draining an ALL-mode iterator yields the projection of the whole
remaining index. -/
theorem collect_all {l : List Tup4} {pat : Tup4} {ord np : Nat} {sg : Bool}
    (hs : StrictSorted l) (hsh : ∀ e ∈ l, e.c3 = 0) :
    ∀ (fuel cur : Nat), l.length - cur < fuel → cur < l.length →
      iterCollect fuel ⟨l, pat, ord, .all, np, cur, false, sg⟩ =
        (l.drop cur).map (unpermute ord) := by
  intro fuel
  induction fuel with
  | zero => intro cur h1 h2; omega
  | succ f ih =>
    intro cur h1 h2
    rw [iterCollect, if_neg (by simp)]
    have hget : sord_iter_get ⟨l, pat, ord, .all, np, cur, false, sg⟩ =
        unpermute ord (elt l cur) := rfl
    have hfwd := @forward_succ ⟨l, pat, ord, .all, np, cur, false, sg⟩ hs hsh h2
    rw [hget]
    rw [List.drop_eq_getElem_cons h2, List.map_cons, ← elt_eq_getElem h2]
    congr 1
    show iterCollect f (sord_iter_next ⟨l, pat, ord, .all, np, cur, false, sg⟩) = _
    rw [sord_iter_next, if_neg (by simp), hfwd]
    by_cases hend : l.length ≤ cur + 1
    · rw [if_pos (by simpa [atEnd] using hend)]
      rw [collect_fin rfl]
      rw [List.drop_eq_nil_of_le (by simpa using hend)]
      rfl
    · rw [if_neg (by simpa [atEnd] using hend)]
      exact ih (cur + 1) (by omega) (by omega)

/-- Draining a SINGLE-mode iterator yields exactly the key under the
cursor. -/
theorem collect_single {l : List Tup4} {pat : Tup4} {ord np : Nat} {sg : Bool}
    (hs : StrictSorted l) (hsh : ∀ e ∈ l, e.c3 = 0) (fuel cur : Nat)
    (h1 : l.length - cur < fuel) (h2 : cur < l.length) :
    iterCollect fuel ⟨l, pat, ord, .single, np, cur, false, sg⟩ =
      [unpermute ord (elt l cur)] := by
  cases fuel with
  | zero => omega
  | succ f =>
    rw [iterCollect, if_neg (by simp)]
    have hget : sord_iter_get ⟨l, pat, ord, .single, np, cur, false, sg⟩ =
        unpermute ord (elt l cur) := rfl
    rw [hget]
    congr 1
    show iterCollect f (sord_iter_next ⟨l, pat, ord, .single, np, cur, false, sg⟩) = _
    rw [sord_iter_next, if_neg (by simp),
      @forward_succ ⟨l, pat, ord, .single, np, cur, false, sg⟩ hs hsh h2]
    by_cases hend : l.length ≤ cur + 1
    · rw [if_pos (by simpa [atEnd] using hend)]
      exact collect_fin rfl
    · rw [if_neg (by simpa [atEnd] using hend)]
      exact collect_fin rfl

theorem qc_pos_of {a b k : Tup4} (h1 : 0 ≤ sord_quad_compare a k)
    (h2 : sord_quad_compare a b < 0) : 0 < sord_quad_compare b k := by
  rcases qc_trichotomy b k with h | h | h
  · have := qc_lt_trans h2 h
    omega
  · rw [h] at h2
    omega
  · exact h

/-- The first key component never decreases along a sorted index. -/
theorem c0_mono {l : List Tup4} (hs : StrictSorted l) {i j : Nat}
    (hij : i ≤ j) (hj : j < l.length) : (elt l i).c0 ≤ (elt l j).c0 := by
  rcases Nat.lt_or_ge i j with h | h
  · have := sorted_lt hs h hj
    rw [qc_lt_iff] at this
    omega
  · have : i = j := by omega
    rw [this]

/-- Under the prefix key profile, the RANGE-mode prefix check agrees with
the full wildcard match. -/
theorem pfx_iff {key e : Tup4} {n : Nat}
    (hk1 : ∀ i < n, comp key i ≠ 0)
    (hk2 : ∀ i, n ≤ i → comp key i = 0)
    (he : ∀ i < n, comp e i ≠ 0) :
    pfxMismatch e key n = false ↔ sord_quad_match key e = true := by
  unfold pfxMismatch
  rw [List.any_eq_false]
  constructor
  · intro h
    apply match_of_prefix hk2
    intro i hi
    have hh := h i (List.mem_range.mpr hi)
    simp only [Bool.not_eq_true', Bool.not_eq_false] at hh
    simp only [sord_id_match, Bool.or_eq_true, beq_iff_eq] at hh
    have g1 := he i hi
    have g2 := hk1 i hi
    omega
  · intro hm i hi
    have hi' := List.mem_range.mp hi
    have := prefix_of_match hk1 he hm i hi'
    simp only [Bool.not_eq_true', Bool.not_eq_false]
    simp only [sord_id_match, Bool.or_eq_true, beq_iff_eq]
    omega

/-- Once the iterator leaves the contiguous block of matches, nothing
later in the index matches. -/
theorem no_match_after {l : List Tup4} {key : Tup4} {n j t : Nat}
    (hs : StrictSorted l)
    (hk1 : ∀ i < n, comp key i ≠ 0)
    (hk2 : ∀ i, n ≤ i → comp key i = 0)
    (he : ∀ e ∈ l, ∀ i < n, comp e i ≠ 0)
    (hj : j < l.length)
    (hmj : sord_quad_match key (elt l j) = true)
    (hjt : j + t < l.length)
    (hnt : ¬ sord_quad_match key (elt l (j + t)) = true) :
    ∀ i, j + t ≤ i → i < l.length → sord_quad_match key (elt l i) = false := by
  rcases Nat.eq_zero_or_pos t with rfl | ht
  · exact absurd hmj (by simpa using hnt)
  intro i h1 h2
  by_contra hm
  rw [Bool.not_eq_false] at hm
  rcases Nat.eq_or_lt_of_le h1 with rfl | hlt
  · exact hnt hm
  apply hnt
  have hprei : ∀ s < n, comp (elt l i) s = comp key s :=
    prefix_of_match hk1 (he _ (elt_mem h2)) hm
  have hge : 0 ≤ sord_quad_compare (elt l (j + t)) key := by
    have g1 := match_ge hk1 hk2 (he _ (elt_mem hj)) hmj
    have g2 := sorted_lt hs (show j < j + t by omega) hjt
    have := qc_pos_of g1 g2
    omega
  have hle : sord_quad_compare (elt l (j + t)) (elt l i) ≤ 0 :=
    le_of_lt (sorted_lt hs hlt h2)
  exact match_of_prefix hk2 (match_sandwich hk2 hprei hge hle)

/-- Position form of membership in a dropped suffix. -/
theorem mem_drop_pos {l : List Tup4} {j : Nat} {a : Tup4}
    (h : a ∈ l.drop j) : ∃ i, j ≤ i ∧ ∃ hi : i < l.length, l[i] = a := by
  obtain ⟨s, hsl, hsa⟩ := List.mem_iff_getElem.mp h
  refine ⟨j + s, by omega, ?_, ?_⟩
  · have := hsl
    simp only [List.length_drop] at this
    omega
  · rw [← List.getElem_drop]
    exact hsa

/-- When nothing before position j matches, the suffix from j carries all
the matches. -/
theorem filter_from_drop {l : List Tup4} {pm : Tup4 → Bool} {j : Nat}
    (h : ∀ i < j, ∀ hi : i < l.length, pm l[i] = false) :
    l.filter pm = (l.drop j).filter pm := by
  conv_lhs => rw [← List.take_append_drop j l]
  rw [List.filter_append]
  have hnil : (l.take j).filter pm = [] := by
    rw [List.filter_eq_nil_iff]
    intro a ha
    obtain ⟨s, hsl, hsa⟩ := List.mem_iff_getElem.mp ha
    have hslen : s < l.length := by
      simp only [List.length_take] at hsl
      omega
    have hsj : s < j := by
      simp only [List.length_take] at hsl
      omega
    have : (l.take j)[s] = l[s] := List.getElem_take l
    rw [this] at hsa
    rw [← hsa]
    simp [h s hsj hslen]
  rw [hnil, List.nil_append]

/-- In the default-graph regime every index key is non-NULL on the (at
most three) prefix positions of a triple pattern. -/
theorem shape_nonzero {l : List Tup4} (hsh : Shape l) {n : Nat} (hn : n ≤ 3) :
    ∀ e ∈ l, ∀ i < n, comp e i ≠ 0 := by
  intro e he i hi
  obtain ⟨h0, h1, h2, _⟩ := hsh e he
  rcases i with _ | _ | _ | _ | i
  · exact h0
  · exact h1
  · exact h2
  · omega
  · omega

/-- Draining a RANGE-mode iterator positioned on a match yields every
match of the remaining suffix of the index. -/
theorem collect_range {l : List Tup4} {key : Tup4} {ord n : Nat} {sg : Bool}
    (hs : StrictSorted l) (hsh : Shape l) (hn3 : n ≤ 3)
    (hk1 : ∀ i < n, comp key i ≠ 0)
    (hk2 : ∀ i, n ≤ i → comp key i = 0) :
    ∀ (fuel cur : Nat), l.length - cur < fuel → cur < l.length →
      sord_quad_match key (elt l cur) = true →
      iterCollect fuel ⟨l, key, ord, .range, n, cur, false, sg⟩ =
        ((l.drop cur).filter (fun e => sord_quad_match key e)).map (unpermute ord) := by
  have he := shape_nonzero hsh hn3
  intro fuel
  induction fuel with
  | zero => intro cur h1 h2 hm; omega
  | succ f ih =>
    intro cur h1 h2 hm
    rw [iterCollect, if_neg (by simp)]
    have hget : sord_iter_get ⟨l, key, ord, .range, n, cur, false, sg⟩ =
        unpermute ord (elt l cur) := rfl
    rw [hget, List.drop_eq_getElem_cons h2, List.filter_cons]
    rw [if_pos (show (fun e => sord_quad_match key e) l[cur] = true by
      rw [← elt_eq_getElem h2]; exact hm)]
    rw [List.map_cons, ← elt_eq_getElem h2]
    congr 1
    show iterCollect f (sord_iter_next ⟨l, key, ord, .range, n, cur, false, sg⟩) = _
    rw [sord_iter_next, if_neg (by simp)]
    dsimp only
    rw [@forward_succ ⟨l, key, ord, .range, n, cur, false, sg⟩ hs hsh.g0 h2]
    by_cases hend : l.length ≤ cur + 1
    · rw [if_pos (by simpa [atEnd] using hend)]
      rw [collect_fin rfl, List.drop_eq_nil_of_le (by simpa using hend)]
      rfl
    · rw [if_neg (by simpa [atEnd] using hend)]
      dsimp only
      rw [getD_eq_elt]
      by_cases hpfx : pfxMismatch (elt l (cur + 1)) key n = true
      · rw [if_pos hpfx, collect_fin rfl]
        have hnm : ∀ a ∈ l.drop (cur + 1),
            ¬ (fun e => sord_quad_match key e) a = true := by
          intro a ha
          obtain ⟨i, hge, hil, rfl⟩ := mem_drop_pos ha
          have := @no_match_after l key n cur 1 hs hk1 hk2 he h2 hm (by omega)
            (by
              intro hmm
              have hcontra := (pfx_iff hk1 hk2 (he _ (elt_mem (by omega)))).mpr hmm
              rw [hpfx] at hcontra
              exact absurd hcontra (by simp)) i (by omega) hil
          rw [← elt_eq_getElem hil]
          simp [this]
        rw [List.filter_eq_nil_iff.mpr hnm]
        rfl
      · rw [if_neg hpfx]
        have hm1 : sord_quad_match key (elt l (cur + 1)) = true :=
          (pfx_iff hk1 hk2 (he _ (elt_mem (by omega)))).mp (by simpa using hpfx)
        exact ih (cur + 1) (by omega) (by omega) hm1

/-- A shaped key matching a FILTER_ALL pattern (some triple component
NULL) sits strictly above the pattern in the index order. -/
theorem fa_match_gt {key e : Tup4}
    (he0 : e.c0 ≠ 0) (he1 : e.c1 ≠ 0) (he2 : e.c2 ≠ 0)
    (hz : key.c0 = 0 ∨ key.c1 = 0 ∨ key.c2 = 0)
    (hm : sord_quad_match key e = true) : 0 < sord_quad_compare e key := by
  rw [← qc_neg_iff, qc_lt_iff]
  simp only [sord_quad_match, Bool.and_eq_true, sord_id_match, Bool.or_eq_true,
    beq_iff_eq] at hm
  omega

/-- Matching a FILTER_RANGE pattern (first and third index components
bound) for a shaped key. -/
theorem fr_match_iff {key e : Tup4}
    (he0 : e.c0 ≠ 0) (he1 : e.c1 ≠ 0) (he2 : e.c2 ≠ 0) (he3 : e.c3 = 0)
    (hk0 : key.c0 ≠ 0) (hk1 : key.c1 = 0) (hk2 : key.c2 ≠ 0) (hk3 : key.c3 = 0) :
    sord_quad_match key e = true ↔ e.c0 = key.c0 ∧ e.c2 = key.c2 := by
  simp only [sord_quad_match, Bool.and_eq_true, sord_id_match, Bool.or_eq_true,
    beq_iff_eq]
  omega

/-- The length-one prefix check of the FILTER_RANGE seek. -/
theorem pfx1_iff {e key : Tup4} (he0 : e.c0 ≠ 0) (hk0 : key.c0 ≠ 0) :
    pfxMismatch e key 1 = true ↔ e.c0 ≠ key.c0 := by
  have hr : pfxMismatch e key 1 = (! sord_id_match e.c0 key.c0 || false) := rfl
  rw [hr, Bool.or_false]
  simp only [Bool.not_eq_true', sord_id_match, Bool.or_eq_false_iff,
    beq_eq_false_iff_ne, ne_eq]
  omega

theorem filter_head_match {key a : Tup4} (h : sord_quad_match a key = true) :
    (fun e => sord_quad_match key e) a = true := by
  show sord_quad_match key a = true
  rw [sord_quad_match_comm]
  exact h

theorem filter_head_nomatch {key a : Tup4} (h : ¬ sord_quad_match a key = true) :
    ¬ (fun e => sord_quad_match key e) a = true := by
  show ¬ sord_quad_match key a = true
  rw [sord_quad_match_comm]
  exact h

/-- Draining a FILTER_ALL iterator after its seek yields every match of
the remaining suffix. -/
theorem fa_run {l : List Tup4} {key : Tup4} {ord n : Nat} {sg : Bool}
    (hs : StrictSorted l) (hsh : Shape l) :
    ∀ (d cur fuel1 fuel2 : Nat), l.length - cur ≤ d →
      l.length - cur < fuel1 → l.length - cur < fuel2 →
      iterCollect fuel1 (seekMatch fuel2 ⟨l, key, ord, .filterAll, n, cur, false, sg⟩) =
        ((l.drop cur).filter (fun e => sord_quad_match key e)).map (unpermute ord) := by
  intro d
  induction d with
  | zero =>
    intro cur fuel1 fuel2 hd hf1 hf2
    have hcur : l.length ≤ cur := by omega
    rcases fuel2 with _ | f2
    · omega
    rw [seekMatch, if_pos (by simpa [atEnd] using hcur), collect_fin rfl,
      List.drop_eq_nil_of_le hcur]
    rfl
  | succ d ih =>
    intro cur fuel1 fuel2 hd hf1 hf2
    rcases Nat.lt_or_ge cur l.length with hcur | hcur
    · rcases fuel2 with _ | f2
      · omega
      rw [seekMatch, if_neg (by simpa [atEnd] using Nat.not_le.mpr hcur)]
      rw [getD_eq_elt]
      by_cases hm : sord_quad_match (elt l cur) key = true
      · rw [if_pos hm]
        rcases fuel1 with _ | f1
        · omega
        rw [iterCollect, if_neg (by simp)]
        have hget : sord_iter_get ⟨l, key, ord, .filterAll, n, cur, false, sg⟩ =
            unpermute ord (elt l cur) := rfl
        rw [hget, List.drop_eq_getElem_cons hcur, List.filter_cons]
        rw [if_pos (by rw [← elt_eq_getElem hcur]; exact filter_head_match hm)]
        rw [List.map_cons, ← elt_eq_getElem hcur]
        congr 1
        show iterCollect f1
          (sord_iter_next ⟨l, key, ord, .filterAll, n, cur, false, sg⟩) = _
        rw [sord_iter_next, if_neg (by simp)]
        dsimp only
        rw [@forward_succ ⟨l, key, ord, .filterAll, n, cur, false, sg⟩ hs hsh.g0 hcur]
        by_cases hend : l.length ≤ cur + 1
        · rw [if_pos (by simpa [atEnd] using hend), collect_fin rfl,
            List.drop_eq_nil_of_le (by simpa using hend)]
          rfl
        · rw [if_neg (by simpa [atEnd] using hend)]
          exact ih (cur + 1) f1 (l.length + 1) (by omega) (by omega) (by omega)
      · rw [if_neg hm]
        rw [@forward_succ ⟨l, key, ord, .filterAll, n, cur, false, sg⟩ hs hsh.g0 hcur]
        rw [List.drop_eq_getElem_cons hcur, List.filter_cons]
        rw [if_neg (by rw [← elt_eq_getElem hcur]; exact filter_head_nomatch hm)]
        exact ih (cur + 1) fuel1 f2 (by omega) (by omega) (by omega)
    · rcases fuel2 with _ | f2
      · omega
      rw [seekMatch, if_pos (by simpa [atEnd] using hcur), collect_fin rfl,
        List.drop_eq_nil_of_le hcur]
      rfl

/-- Draining a FILTER_RANGE iterator after its seek, starting inside or
before the block whose first component carries the key, yields every
match of the remaining suffix. -/
theorem fr_run {l : List Tup4} {key : Tup4} {ord : Nat} {sg : Bool}
    (hs : StrictSorted l) (hsh : Shape l)
    (hk0 : key.c0 ≠ 0) (hk1 : key.c1 = 0) (hk2 : key.c2 ≠ 0) (hk3 : key.c3 = 0) :
    ∀ (d cur fuel1 fuel2 : Nat), l.length - cur ≤ d →
      l.length - cur < fuel1 → l.length - cur < fuel2 →
      (∀ i, cur ≤ i → i < l.length → key.c0 ≤ (elt l i).c0) →
      iterCollect fuel1
        (seekMatchRange fuel2 ⟨l, key, ord, .filterRange, 1, cur, false, sg⟩) =
        ((l.drop cur).filter (fun e => sord_quad_match key e)).map (unpermute ord) := by
  intro d
  induction d with
  | zero =>
    intro cur fuel1 fuel2 hd hf1 hf2 hge
    have hcur : l.length ≤ cur := by omega
    rcases fuel2 with _ | f2
    · omega
    rw [seekMatchRange, if_neg (by simp), if_pos (by simpa [atEnd] using hcur),
      collect_fin rfl, List.drop_eq_nil_of_le hcur]
    rfl
  | succ d ih =>
    intro cur fuel1 fuel2 hd hf1 hf2 hge
    rcases Nat.lt_or_ge cur l.length with hcur | hcur
    · rcases fuel2 with _ | f2
      · omega
      rw [seekMatchRange, if_neg (by simp),
        if_neg (by simpa [atEnd] using Nat.not_le.mpr hcur)]
      dsimp only
      rw [getD_eq_elt]
      have hsh_cur := hsh _ (elt_mem hcur)
      by_cases hm : sord_quad_match (elt l cur) key = true
      · rw [if_pos hm]
        rcases fuel1 with _ | f1
        · omega
        rw [iterCollect, if_neg (by simp)]
        have hget : sord_iter_get ⟨l, key, ord, .filterRange, 1, cur, false, sg⟩ =
            unpermute ord (elt l cur) := rfl
        rw [hget, List.drop_eq_getElem_cons hcur, List.filter_cons]
        rw [if_pos (by rw [← elt_eq_getElem hcur]; exact filter_head_match hm)]
        rw [List.map_cons, ← elt_eq_getElem hcur]
        congr 1
        show iterCollect f1
          (sord_iter_next ⟨l, key, ord, .filterRange, 1, cur, false, sg⟩) = _
        rw [sord_iter_next, if_neg (by simp)]
        dsimp only
        rw [@forward_succ ⟨l, key, ord, .filterRange, 1, cur, false, sg⟩ hs hsh.g0 hcur]
        by_cases hend : l.length ≤ cur + 1
        · rw [if_pos (by simpa [atEnd] using hend), collect_fin rfl,
            List.drop_eq_nil_of_le (by simpa using hend)]
          rfl
        · rw [if_neg (by simpa [atEnd] using hend)]
          exact ih (cur + 1) f1 (l.length + 1) (by omega) (by omega) (by omega)
            (fun i h1 h2 => hge i (by omega) h2)
      · rw [if_neg hm]
        by_cases hc0 : (elt l cur).c0 = key.c0
        · rw [if_neg (show ¬ pfxMismatch (elt l cur) key 1 = true by
            rw [pfx1_iff hsh_cur.1 hk0]; omega)]
          rw [@forward_succ ⟨l, key, ord, .filterRange, 1, cur, false, sg⟩ hs hsh.g0 hcur]
          by_cases hend : l.length ≤ cur + 1
          · rw [if_pos (by simpa [atEnd] using hend), collect_fin rfl,
              List.drop_eq_getElem_cons hcur, List.filter_cons]
            rw [if_neg (by rw [← elt_eq_getElem hcur]; exact filter_head_nomatch hm)]
            rw [List.drop_eq_nil_of_le (by simpa using hend)]
            rfl
          · rw [if_neg (by simpa [atEnd] using hend),
              List.drop_eq_getElem_cons hcur, List.filter_cons]
            rw [if_neg (by rw [← elt_eq_getElem hcur]; exact filter_head_nomatch hm)]
            exact ih (cur + 1) fuel1 f2 (by omega) (by omega) (by omega)
              (fun i h1 h2 => hge i (by omega) h2)
        · rw [if_pos ((pfx1_iff hsh_cur.1 hk0).mpr hc0), collect_fin rfl]
          have hnm : ∀ a ∈ l.drop cur, ¬ (fun e => sord_quad_match key e) a = true := by
            intro a ha
            obtain ⟨i, hge', hil, rfl⟩ := mem_drop_pos ha
            have hshi := hsh _ (elt_mem hil)
            have hci : (elt l cur).c0 ≤ (elt l i).c0 := c0_mono hs hge' hil
            have hgc : key.c0 ≤ (elt l cur).c0 := hge cur (Nat.le_refl _) hcur
            rw [← elt_eq_getElem hil,
              fr_match_iff hshi.1 hshi.2.1 hshi.2.2.1 hshi.2.2.2 hk0 hk1 hk2 hk3]
            omega
          rw [List.filter_eq_nil_iff.mpr hnm]
          rfl
    · rcases fuel2 with _ | f2
      · omega
      rw [seekMatchRange, if_neg (by simp), if_pos (by simpa [atEnd] using hcur),
        collect_fin rfl, List.drop_eq_nil_of_le hcur]
      rfl

/-! ### Where index_lower_bound leaves the cursor for the filter modes -/

theorem lb_iter_end_nomatch2 {l : List Tup4} {key : Tup4} {i : Nat}
    (h0 : i ≠ 0) (hend : i = l.length)
    (hm : sord_quad_match key (elt l (i - 1)) = false)
    (hp : sord_quad_match key (elt l (i - 1 - 1)) = false) :
    index_lower_bound_iter l i key = i - 1 := by
  unfold index_lower_bound_iter
  rw [if_neg h0]
  simp only [if_pos hend, getD_eq_elt, hm, hp]
  simp

/-- For a FILTER_ALL search the lower bound lands strictly inside the
index with no match at or after any earlier position. -/
theorem fa_lb {l : List Tup4} {key : Tup4}
    (hs : StrictSorted l) (hsh : Shape l)
    (hz : key.c0 = 0 ∨ key.c1 = 0 ∨ key.c2 = 0)
    (hlen : 0 < l.length) :
    index_lower_bound sord_quad_compare l key < l.length ∧
    ∀ i < index_lower_bound sord_quad_compare l key,
      sord_quad_match key (elt l i) = false := by
  have hub_le := gseq_search_le_length sord_quad_compare l key
  have hnm_ub : ∀ i < gseq_search sord_quad_compare l key,
      sord_quad_match key (elt l i) = false := by
    intro i hi
    by_contra hm
    rw [Bool.not_eq_false] at hm
    have hil : i < l.length := by omega
    have h1 := gseq_search_spec1 sord_quad_compare l key i hi
    obtain ⟨e0, e1, e2, _⟩ := hsh _ (elt_mem hil)
    have := fa_match_gt e0 e1 e2 hz hm
    omega
  refine ⟨lb_iter_lt_len hlen hub_le, fun i hi => ?_⟩
  have := @lb_iter_le l key _ hub_le
  exact hnm_ub i (by unfold index_lower_bound at hi; omega)

/-- For a FILTER_RANGE search the lower bound lands strictly inside the
index, nothing earlier matches, and from the cursor on either the first
component has reached the key (the block invariant of the seek) or
nothing matches at all. -/
theorem fr_lb {l : List Tup4} {key : Tup4}
    (hs : StrictSorted l) (hsh : Shape l)
    (hk0 : key.c0 ≠ 0) (hk1 : key.c1 = 0) (hk2 : key.c2 ≠ 0) (hk3 : key.c3 = 0)
    (hlen : 0 < l.length) :
    index_lower_bound sord_quad_compare l key < l.length ∧
    (∀ i < index_lower_bound sord_quad_compare l key,
      sord_quad_match key (elt l i) = false) ∧
    ((∀ i, index_lower_bound sord_quad_compare l key ≤ i → i < l.length →
        key.c0 ≤ (elt l i).c0) ∨
     (∀ i, index_lower_bound sord_quad_compare l key ≤ i → i < l.length →
        (elt l i).c0 < key.c0)) := by
  have hub_le := gseq_search_le_length sord_quad_compare l key
  have hlt_ub : ∀ i < gseq_search sord_quad_compare l key,
      sord_quad_compare (elt l i) key < 0 := by
    intro i hi
    have h1 := gseq_search_spec1 sord_quad_compare l key i hi
    have hil : i < l.length := by omega
    have hne : sord_quad_compare (elt l i) key ≠ 0 := by
      intro h0
      have heq := qc_eq_iff.mp h0
      have hc1 := (hsh _ (elt_mem hil)).2.1
      rw [heq] at hc1
      omega
    omega
  have hnm_ub : ∀ i < gseq_search sord_quad_compare l key,
      sord_quad_match key (elt l i) = false := by
    intro i hi
    have hil : i < l.length := by omega
    obtain ⟨e0, e1, e2, e3⟩ := hsh _ (elt_mem hil)
    have hqc := hlt_ub i hi
    rw [qc_lt_iff] at hqc
    rw [Bool.eq_false_iff]
    intro hm
    rw [fr_match_iff e0 e1 e2 e3 hk0 hk1 hk2 hk3] at hm
    omega
  rcases Nat.lt_or_ge (gseq_search sord_quad_compare l key) l.length with hub | hub
  · have hlb : index_lower_bound sord_quad_compare l key =
        gseq_search sord_quad_compare l key := by
      unfold index_lower_bound
      rcases Nat.eq_zero_or_pos (gseq_search sord_quad_compare l key) with h0 | h0
      · rw [h0]
        exact lb_iter_zero l key
      · have hpred := hnm_ub (gseq_search sord_quad_compare l key - 1) (by omega)
        by_cases hm : sord_quad_match key
            (elt l (gseq_search sord_quad_compare l key)) = true
        · rw [lb_iter_match (by omega) (by omega) hm]
          exact scan_stop_pred (Or.inr hpred)
        · exact lb_iter_nomatch2 (by omega) (by omega)
            (by simpa using hm) hpred
    rw [hlb]
    refine ⟨hub, hnm_ub, Or.inl fun i h1 h2 => ?_⟩
    have hpos : 0 < sord_quad_compare (elt l i) key := by
      have hub_pos := gseq_search_spec2 sord_quad_compare l key (by omega)
      rcases Nat.eq_or_lt_of_le h1 with rfl | hlt
      · exact hub_pos
      · exact qc_pos_of (le_of_lt hub_pos) (sorted_lt hs hlt h2)
    by_contra hc0
    push_neg at hc0
    have : sord_quad_compare (elt l i) key < 0 := by
      rw [qc_lt_iff]
      omega
    omega
  · have hub_eq : gseq_search sord_quad_compare l key = l.length := by omega
    have hlb : index_lower_bound sord_quad_compare l key = l.length - 1 := by
      unfold index_lower_bound
      rw [hub_eq]
      exact lb_iter_end_nomatch2 (by omega) rfl
        (hnm_ub _ (by omega)) (hnm_ub _ (by omega))
    rw [hlb]
    refine ⟨by omega, fun i hi => hnm_ub i (by omega), Or.inr fun i h1 h2 => ?_⟩
    have hqc := hlt_ub i (by omega)
    rw [qc_lt_iff] at hqc
    have he1 := (hsh _ (elt_mem h2)).2.1
    omega

/-! ### The seeks leave the underlying sequence unchanged -/

theorem forwardIt_idx (it : SordIter) : (forwardIt it).idx = it.idx := by
  unfold forwardIt
  split_ifs <;> rfl

theorem seekMatch_idx : ∀ (fuel : Nat) (it : SordIter),
    (seekMatch fuel it).idx = it.idx := by
  intro fuel
  induction fuel with
  | zero => intro it; rfl
  | succ f ih =>
    intro it
    unfold seekMatch
    split_ifs <;> first
      | rfl
      | rw [ih (forwardIt it), forwardIt_idx]

theorem seekMatchRange_idx : ∀ (fuel : Nat) (it : SordIter),
    (seekMatchRange fuel it).idx = it.idx := by
  intro fuel
  induction fuel with
  | zero => intro it; rfl
  | succ f ih =>
    intro it
    unfold seekMatchRange
    dsimp only
    split_ifs <;> first
      | rfl
      | (show (forwardIt it).idx = it.idx; rw [forwardIt_idx])
      | rw [ih (forwardIt it), forwardIt_idx]

/-! ### From index order back to standard order -/

theorem permute_unpermute {ord : Nat} (h : ord < 12) (k : Tup4) :
    permute ord (unpermute ord k) = k := by
  interval_cases ord <;> rfl

theorem unpermute_inj {ord : Nat} (h : ord < 12) :
    Function.Injective (unpermute ord) := by
  intro a b hab
  have := congrArg (permute ord) hab
  rwa [permute_unpermute h, permute_unpermute h] at this

/-- The wildcard match is invariant under permuting both sides into the
same index order. -/
theorem match_permute {ord : Nat} (h : ord < 12) (a b : Tup4) :
    sord_quad_match (permute ord a) (permute ord b) = sord_quad_match a b := by
  rw [Bool.eq_iff_iff]
  simp only [sord_quad_match, Bool.and_eq_true]
  interval_cases ord <;>
    (constructor <;> intro hh <;> obtain ⟨⟨⟨m0, m1⟩, m2⟩, m3⟩ := hh <;>
      refine ⟨⟨⟨?_, ?_⟩, ?_⟩, ?_⟩ <;>
        first | exact m0 | exact m1 | exact m2 | exact m3)

/-- On stored (shaped) quads and patterns with a NULL graph, the spec's
component match and the code's sord_quad_match agree. -/
theorem patMatches_eq {p s : Tup4}
    (hs0 : s.c0 ≠ 0) (hs1 : s.c1 ≠ 0) (hs2 : s.c2 ≠ 0) (hs3 : s.c3 = 0)
    (hp3 : p.c3 = 0) : patMatches p s = sord_quad_match p s := by
  rw [Bool.eq_iff_iff]
  simp only [patMatches, sord_quad_match, sord_id_match, Bool.and_eq_true,
    Bool.or_eq_true, beq_iff_eq]
  omega

/-- Every triple index of a well-formed default-graph store is shaped. -/
theorem shape_of_index {m : SordModel} {ord : Nat} {l : List Tup4}
    (hwf : WFModel m) (hgd : DefaultGraphOnly m) (hord : ord < 6)
    (hidx : getIndex m ord = some l) : Shape l := by
  obtain ⟨-, -, -, hnzq, hok⟩ := hwf
  obtain ⟨-, hfrom, -⟩ := indexOK_some hidx (hok ord (by omega))
  intro e he
  obtain ⟨s, hsmem, rfl⟩ := hfrom e he
  obtain ⟨s0, s1, s2⟩ := hnzq s hsmem
  have s3 := hgd s hsmem
  interval_cases ord <;>
    (refine ⟨?_, ?_, ?_, ?_⟩ <;>
      first | exact s0 | exact s1 | exact s2 | exact s3)

/-- Once a branch shows the result list is the filtered projection of the
chosen index, soundness, completeness and duplicate-freedom follow. -/
theorem findList_conclude {m : SordModel} {p : Tup4} {ord : Nat} {l : List Tup4}
    (hwf : WFModel m) (hgd : DefaultGraphOnly m) (hord : ord < 12)
    (hidx : getIndex m ord = some l) (hp3 : p.c3 = 0)
    (hfl : sordFindList m p =
      (l.filter (fun e => sord_quad_match (permute ord p) e)).map (unpermute ord)) :
    (sordFindList m p).Nodup ∧
    ∀ q, q ∈ sordFindList m p ↔ q ∈ storedQuads m ∧ patMatches p q = true := by
  obtain ⟨hlen, hspo, hnq, hnzq, hok⟩ := hwf
  obtain ⟨hsort, hfrom, hto⟩ := indexOK_some hidx (hok ord hord)
  constructor
  · rw [hfl]
    exact ((sorted_nodup hsort).filter _).map (unpermute_inj hord)
  · intro q
    rw [hfl]
    simp only [List.mem_map, List.mem_filter]
    constructor
    · rintro ⟨k, ⟨hkmem, hkmatch⟩, rfl⟩
      obtain ⟨s, hsmem, rfl⟩ := hfrom k hkmem
      rw [unpermute_permute hord]
      refine ⟨hsmem, ?_⟩
      obtain ⟨s0, s1, s2⟩ := hnzq s hsmem
      have s3 := hgd s hsmem
      rw [patMatches_eq s0 s1 s2 s3 hp3]
      rw [match_permute hord] at hkmatch
      exact hkmatch
    · rintro ⟨hqmem, hqpm⟩
      refine ⟨permute ord q, ⟨hto q hqmem, ?_⟩, unpermute_permute hord q⟩
      rw [match_permute hord]
      obtain ⟨q0, q1, q2⟩ := hnzq q hqmem
      have q3 := hgd q hqmem
      rw [← patMatches_eq q0 q1 q2 q3 hp3]
      exact hqpm

/-! ### The result list of each search mode -/

/-- A pattern with a nonzero component under the chosen order is not the
all-wildcard pattern. -/
theorem not_all_null {p : Tup4} {ord n : Nat} (hn0 : 0 < n)
    (hk1 : ∀ i < n, comp (permute ord p) i ≠ 0) :
    ¬ (p.c0 = 0 ∧ p.c1 = 0 ∧ p.c2 = 0 ∧ p.c3 = 0) := by
  intro hcon
  apply hk1 0 hn0
  have hz : ∀ j, comp p j = 0 := by
    intro j
    rcases j with _ | _ | _ | _ | j
    · exact hcon.1
    · exact hcon.2.1
    · exact hcon.2.2.1
    · exact hcon.2.2.2
    · rfl
  exact hz _

/-- sord_find in RANGE mode returns exactly the matches of the chosen
index, projected back to standard order. -/
theorem findList_range {m : SordModel} {p : Tup4} {ord n : Nat} {l : List Tup4}
    (hbi : sord_best_index m p = ⟨ord, .range, n⟩)
    (hidx : getIndex m ord = some l)
    (hs : StrictSorted l) (hsh : Shape l)
    (hn0 : 0 < n) (hn3 : n ≤ 3)
    (hk1 : ∀ i < n, comp (permute ord p) i ≠ 0)
    (hk2 : ∀ i, n ≤ i → comp (permute ord p) i = 0) :
    sordFindList m p =
      (l.filter (fun e => sord_quad_match (permute ord p) e)).map (unpermute ord) := by
  have hnall := not_all_null hn0 hk1
  have he := shape_nonzero hsh hn3
  have hmode : ¬ (comp p (orderings ord 0) ≠ 0 ∧ comp p (orderings ord 1) ≠ 0 ∧
      comp p (orderings ord 2) ≠ 0 ∧ comp p (orderings ord 3) ≠ 0) := by
    intro hcon
    exact hcon.2.2.2 (hk2 3 hn3)
  by_cases hex : ∃ i, i < l.length ∧
      sord_quad_match (permute ord p) (elt l i) = true
  · obtain hspec := Nat.find_spec hex
    have hmin' : ∀ i < Nat.find hex,
        ¬ sord_quad_match (permute ord p) (elt l i) = true :=
      fun i hi hm => Nat.find_min hex hi ⟨by omega, hm⟩
    have hlb := index_lower_bound_leftmost hs hk1 hk2 he hspec.1 hspec.2 hmin'
    have hfind : sord_find m p = some
        ⟨l, permute ord p, ord, .range, n, Nat.find hex, false, decide (ord < 6)⟩ := by
      unfold sord_find
      rw [if_neg hnall]
      dsimp only
      rw [hbi]
      dsimp only
      rw [if_neg hmode, hidx]
      dsimp only
      rw [show (⟨comp p (orderings ord 0), comp p (orderings ord 1),
        comp p (orderings ord 2), comp p (orderings ord 3)⟩ : Tup4) =
        permute ord p from rfl]
      rw [hlb]
      rw [if_neg (by omega)]
      rw [getD_eq_elt]
      rw [if_neg (fun hcon => absurd hspec.2 (by simpa using hcon.2))]
      rfl
    unfold sordFindList
    rw [hfind]
    dsimp only
    rw [collect_range hs hsh hn3 hk1 hk2 (l.length + 1) (Nat.find hex)
      (by omega) hspec.1 hspec.2]
    have hnb : ∀ i < Nat.find hex, ∀ hi : i < l.length,
        (fun e => sord_quad_match (permute ord p) e) l[i] = false := by
      intro i hij hi
      have hh := hmin' i hij
      rw [← elt_eq_getElem hi]
      simpa using hh
    rw [← filter_from_drop hnb]
  · push_neg at hex
    have hnone : ∀ i < l.length,
        sord_quad_match (permute ord p) (elt l i) = false := by
      intro i hi
      have := hex i
      simp only [hi, true_and] at this
      simpa using this
    have hfilter : l.filter (fun e => sord_quad_match (permute ord p) e) = [] := by
      rw [List.filter_eq_nil_iff]
      intro a ha
      obtain ⟨i, hi, rfl⟩ := List.mem_iff_getElem.mp ha
      rw [← elt_eq_getElem hi]
      simp [hnone i hi]
    rw [hfilter]
    have hfind : sord_find m p = none := by
      unfold sord_find
      rw [if_neg hnall]
      dsimp only
      rw [hbi]
      dsimp only
      rw [if_neg hmode, hidx]
      dsimp only
      rw [show (⟨comp p (orderings ord 0), comp p (orderings ord 1),
        comp p (orderings ord 2), comp p (orderings ord 3)⟩ : Tup4) =
        permute ord p from rfl]
      by_cases hcl : index_lower_bound sord_quad_compare l
          (permute ord p) = l.length
      · rw [if_pos hcl]
      · rw [if_neg hcl]
        have hg := gseq_search_le_length sord_quad_compare l (permute ord p)
        have hle : index_lower_bound sord_quad_compare l (permute ord p) ≤
            l.length := le_trans (lb_iter_le hg) hg
        rw [getD_eq_elt]
        rw [if_pos ⟨Or.inl rfl, by
          simp [hnone (index_lower_bound sord_quad_compare l (permute ord p))
            (by omega)]⟩]
    unfold sordFindList
    rw [hfind]
    rfl

/-- sord_find in SINGLE mode returns exactly the (unique) match of the
chosen index. -/
theorem findList_single {m : SordModel} {p : Tup4} {ord np : Nat} {l : List Tup4}
    (hbi : sord_best_index m p = ⟨ord, .single, np⟩)
    (hidx : getIndex m ord = some l)
    (hs : StrictSorted l) (hsh : Shape l)
    (hk1 : ∀ i < 3, comp (permute ord p) i ≠ 0)
    (hk2 : ∀ i, 3 ≤ i → comp (permute ord p) i = 0) :
    sordFindList m p =
      (l.filter (fun e => sord_quad_match (permute ord p) e)).map (unpermute ord) := by
  have hnall := not_all_null (by omega) hk1
  have he := shape_nonzero hsh (Nat.le_refl 3)
  have hmode : ¬ (comp p (orderings ord 0) ≠ 0 ∧ comp p (orderings ord 1) ≠ 0 ∧
      comp p (orderings ord 2) ≠ 0 ∧ comp p (orderings ord 3) ≠ 0) := by
    intro hcon
    exact hcon.2.2.2 (hk2 3 (Nat.le_refl 3))
  by_cases hex : ∃ i, i < l.length ∧
      sord_quad_match (permute ord p) (elt l i) = true
  · obtain hspec := Nat.find_spec hex
    have hmin' : ∀ i < Nat.find hex,
        ¬ sord_quad_match (permute ord p) (elt l i) = true :=
      fun i hi hm => Nat.find_min hex hi ⟨by omega, hm⟩
    have hlb := index_lower_bound_leftmost hs hk1 hk2 he hspec.1 hspec.2 hmin'
    have huniq : ∀ e ∈ l, sord_quad_match (permute ord p) e = true →
        e = elt l (Nat.find hex) := by
      intro e hemem hm
      have hpre := prefix_of_match hk1 (he e hemem) hm
      have hprej := prefix_of_match hk1 (he _ (elt_mem hspec.1)) hspec.2
      rw [Tup4.eq_iff]
      refine ⟨?_, ?_, ?_, ?_⟩
      · show comp e 0 = comp (elt l (Nat.find hex)) 0
        rw [hpre 0 (by omega), hprej 0 (by omega)]
      · show comp e 1 = comp (elt l (Nat.find hex)) 1
        rw [hpre 1 (by omega), hprej 1 (by omega)]
      · show comp e 2 = comp (elt l (Nat.find hex)) 2
        rw [hpre 2 (by omega), hprej 2 (by omega)]
      · rw [(hsh e hemem).2.2.2, (hsh _ (elt_mem hspec.1)).2.2.2]
    have hfind : sord_find m p = some
        ⟨l, permute ord p, ord, .single, np, Nat.find hex, false, decide (ord < 6)⟩ := by
      unfold sord_find
      rw [if_neg hnall]
      dsimp only
      rw [hbi]
      dsimp only
      rw [if_neg hmode, hidx]
      dsimp only
      rw [show (⟨comp p (orderings ord 0), comp p (orderings ord 1),
        comp p (orderings ord 2), comp p (orderings ord 3)⟩ : Tup4) =
        permute ord p from rfl]
      rw [hlb]
      rw [if_neg (by omega)]
      rw [getD_eq_elt]
      rw [if_neg (fun hcon => absurd hspec.2 (by simpa using hcon.2))]
      rfl
    unfold sordFindList
    rw [hfind]
    dsimp only
    rw [collect_single hs hsh.g0 (l.length + 1) (Nat.find hex) (by omega) hspec.1]
    have hnb : ∀ i < Nat.find hex, ∀ hi : i < l.length,
        (fun e => sord_quad_match (permute ord p) e) l[i] = false := by
      intro i hij hi
      have hh := hmin' i hij
      rw [← elt_eq_getElem hi]
      simpa using hh
    rw [filter_from_drop hnb, List.drop_eq_getElem_cons hspec.1, List.filter_cons]
    have hfx := hspec.1
    rw [if_pos (show (fun e => sord_quad_match (permute ord p) e)
        l[Nat.find hex] = true from by
      rw [← elt_eq_getElem hfx]
      exact hspec.2)]
    have htail : (l.drop (Nat.find hex + 1)).filter
        (fun e => sord_quad_match (permute ord p) e) = [] := by
      rw [List.filter_eq_nil_iff]
      intro a ha
      obtain ⟨i, hge, hi, rfl⟩ := mem_drop_pos ha
      rw [← elt_eq_getElem hi]
      intro hm
      have heq := huniq _ (elt_mem hi) hm
      have hlt := sorted_lt hs (show Nat.find hex < i by omega) hi
      rw [heq] at hlt
      have h0 : sord_quad_compare (elt l (Nat.find hex)) (elt l (Nat.find hex)) = 0 :=
        qc_eq_iff.mpr rfl
      omega
    rw [htail, List.map_cons, List.map_nil, ← elt_eq_getElem hspec.1]
  · push_neg at hex
    have hnone : ∀ i < l.length,
        sord_quad_match (permute ord p) (elt l i) = false := by
      intro i hi
      have := hex i
      simp only [hi, true_and] at this
      simpa using this
    have hfilter : l.filter (fun e => sord_quad_match (permute ord p) e) = [] := by
      rw [List.filter_eq_nil_iff]
      intro a ha
      obtain ⟨i, hi, rfl⟩ := List.mem_iff_getElem.mp ha
      rw [← elt_eq_getElem hi]
      simp [hnone i hi]
    rw [hfilter]
    have hfind : sord_find m p = none := by
      unfold sord_find
      rw [if_neg hnall]
      dsimp only
      rw [hbi]
      dsimp only
      rw [if_neg hmode, hidx]
      dsimp only
      rw [show (⟨comp p (orderings ord 0), comp p (orderings ord 1),
        comp p (orderings ord 2), comp p (orderings ord 3)⟩ : Tup4) =
        permute ord p from rfl]
      by_cases hcl : index_lower_bound sord_quad_compare l
          (permute ord p) = l.length
      · rw [if_pos hcl]
      · rw [if_neg hcl]
        have hg := gseq_search_le_length sord_quad_compare l (permute ord p)
        have hle : index_lower_bound sord_quad_compare l (permute ord p) ≤
            l.length := le_trans (lb_iter_le hg) hg
        rw [getD_eq_elt]
        rw [if_pos ⟨Or.inr rfl, by
          simp [hnone (index_lower_bound sord_quad_compare l (permute ord p))
            (by omega)]⟩]
    unfold sordFindList
    rw [hfind]
    rfl

/-- sord_find in FILTER_RANGE mode returns exactly the matches of the
chosen index. -/
theorem findList_fr {m : SordModel} {p : Tup4} {ord : Nat} {l : List Tup4}
    (hbi : sord_best_index m p = ⟨ord, .filterRange, 1⟩)
    (hidx : getIndex m ord = some l)
    (hs : StrictSorted l) (hsh : Shape l)
    (hq0 : (permute ord p).c0 ≠ 0) (hq1 : (permute ord p).c1 = 0)
    (hq2 : (permute ord p).c2 ≠ 0) (hq3 : (permute ord p).c3 = 0) :
    sordFindList m p =
      (l.filter (fun e => sord_quad_match (permute ord p) e)).map (unpermute ord) := by
  have hnall : ¬ (p.c0 = 0 ∧ p.c1 = 0 ∧ p.c2 = 0 ∧ p.c3 = 0) :=
    @not_all_null p ord 1 (by omega) (fun i hi => by
      interval_cases i
      exact hq0)
  have hmode : ¬ (comp p (orderings ord 0) ≠ 0 ∧ comp p (orderings ord 1) ≠ 0 ∧
      comp p (orderings ord 2) ≠ 0 ∧ comp p (orderings ord 3) ≠ 0) := by
    intro hcon
    exact hcon.2.2.2 hq3
  rcases Nat.eq_zero_or_pos l.length with hlen | hlen
  · have hl := List.eq_nil_of_length_eq_zero hlen
    subst hl
    have hfind : sord_find m p = none := by
      unfold sord_find
      rw [if_neg hnall]
      dsimp only
      rw [hbi]
      dsimp only
      rw [if_neg hmode, hidx]
      dsimp only
      rw [if_pos (by rfl)]
    unfold sordFindList
    rw [hfind]
    rfl
  · obtain ⟨hcurlt, hnmb, hdisj⟩ := fr_lb hs hsh hq0 hq1 hq2 hq3 hlen
    have hfind : sord_find m p = some (seekMatchRange (l.length + 1)
        ⟨l, permute ord p, ord, .filterRange, 1,
          index_lower_bound sord_quad_compare l (permute ord p), false,
          decide (ord < 6)⟩) := by
      unfold sord_find
      rw [if_neg hnall]
      dsimp only
      rw [hbi]
      dsimp only
      rw [if_neg hmode, hidx]
      dsimp only
      rw [show (⟨comp p (orderings ord 0), comp p (orderings ord 1),
        comp p (orderings ord 2), comp p (orderings ord 3)⟩ : Tup4) =
        permute ord p from rfl]
      rw [if_neg (by omega)]
      rw [if_neg (fun hcon => by
        rcases hcon.1 with h | h <;> exact SearchMode.noConfusion h)]
      rfl
    unfold sordFindList
    rw [hfind]
    dsimp only
    rw [seekMatchRange_idx]
    dsimp only
    have hnb : ∀ i < index_lower_bound sord_quad_compare l (permute ord p),
        ∀ hi : i < l.length,
        (fun e => sord_quad_match (permute ord p) e) l[i] = false := by
      intro i hij hi
      rw [← elt_eq_getElem hi]
      simp [hnmb i hij]
    rcases hdisj with hge | hlt0
    · rw [fr_run hs hsh hq0 hq1 hq2 hq3 l.length
        (index_lower_bound sord_quad_compare l (permute ord p))
        (l.length + 1) (l.length + 1) (by omega) (by omega) (by omega) hge]
      rw [← filter_from_drop hnb]
    · have hshc := hsh _ (elt_mem hcurlt)
      have hnm_cur : ¬ sord_quad_match
          (elt l (index_lower_bound sord_quad_compare l (permute ord p)))
          (permute ord p) = true := by
        rw [sord_quad_match_comm]
        rw [fr_match_iff hshc.1 hshc.2.1 hshc.2.2.1 hshc.2.2.2 hq0 hq1 hq2 hq3]
        have := hlt0 _ (Nat.le_refl _) hcurlt
        omega
      rw [seekMatchRange, if_neg (by simp),
        if_neg (by simpa [atEnd] using Nat.not_le.mpr hcurlt)]
      dsimp only
      rw [getD_eq_elt]
      rw [if_neg hnm_cur]
      rw [if_pos ((pfx1_iff hshc.1 hq0).mpr
        (by have := hlt0 _ (Nat.le_refl _) hcurlt; omega))]
      rw [collect_fin rfl]
      have hfilter : l.filter (fun e => sord_quad_match (permute ord p) e) = [] := by
        rw [List.filter_eq_nil_iff]
        intro a ha
        obtain ⟨i, hi, rfl⟩ := List.mem_iff_getElem.mp ha
        rw [← elt_eq_getElem hi]
        rcases Nat.lt_or_ge i (index_lower_bound sord_quad_compare l (permute ord p))
          with hlt | hge2
        · simp [hnmb i hlt]
        · have hshi := hsh _ (elt_mem hi)
          intro hm
          rw [fr_match_iff hshi.1 hshi.2.1 hshi.2.2.1 hshi.2.2.2 hq0 hq1 hq2 hq3]
            at hm
          have := hlt0 i hge2 hi
          have hmono := c0_mono hs hge2 hi
          omega
      rw [hfilter]
      rfl

/-- sord_find in FILTER_ALL mode returns exactly the matches of the
chosen index. -/
theorem findList_fa {m : SordModel} {p : Tup4} {ord np : Nat} {l : List Tup4}
    (hbi : sord_best_index m p = ⟨ord, .filterAll, np⟩)
    (hidx : getIndex m ord = some l)
    (hs : StrictSorted l) (hsh : Shape l)
    (hz : (permute ord p).c0 = 0 ∨ (permute ord p).c1 = 0 ∨ (permute ord p).c2 = 0)
    (hq3 : (permute ord p).c3 = 0)
    (hnall : ¬ (p.c0 = 0 ∧ p.c1 = 0 ∧ p.c2 = 0 ∧ p.c3 = 0)) :
    sordFindList m p =
      (l.filter (fun e => sord_quad_match (permute ord p) e)).map (unpermute ord) := by
  have hmode : ¬ (comp p (orderings ord 0) ≠ 0 ∧ comp p (orderings ord 1) ≠ 0 ∧
      comp p (orderings ord 2) ≠ 0 ∧ comp p (orderings ord 3) ≠ 0) := by
    intro hcon
    exact hcon.2.2.2 hq3
  rcases Nat.eq_zero_or_pos l.length with hlen | hlen
  · have hl := List.eq_nil_of_length_eq_zero hlen
    subst hl
    have hfind : sord_find m p = none := by
      unfold sord_find
      rw [if_neg hnall]
      dsimp only
      rw [hbi]
      dsimp only
      rw [if_neg hmode, hidx]
      dsimp only
      rw [if_pos (by rfl)]
    unfold sordFindList
    rw [hfind]
    rfl
  · obtain ⟨hcurlt, hnmb⟩ := fa_lb hs hsh hz hlen
    have hfind : sord_find m p = some (seekMatch (l.length + 1)
        ⟨l, permute ord p, ord, .filterAll, np,
          index_lower_bound sord_quad_compare l (permute ord p), false,
          decide (ord < 6)⟩) := by
      unfold sord_find
      rw [if_neg hnall]
      dsimp only
      rw [hbi]
      dsimp only
      rw [if_neg hmode, hidx]
      dsimp only
      rw [show (⟨comp p (orderings ord 0), comp p (orderings ord 1),
        comp p (orderings ord 2), comp p (orderings ord 3)⟩ : Tup4) =
        permute ord p from rfl]
      rw [if_neg (by omega)]
      rw [if_neg (fun hcon => by
        rcases hcon.1 with h | h <;> exact SearchMode.noConfusion h)]
      rfl
    unfold sordFindList
    rw [hfind]
    dsimp only
    rw [seekMatch_idx]
    dsimp only
    rw [fa_run hs hsh l.length
      (index_lower_bound sord_quad_compare l (permute ord p))
      (l.length + 1) (l.length + 1) (by omega) (by omega) (by omega)]
    have hnb : ∀ i < index_lower_bound sord_quad_compare l (permute ord p),
        ∀ hi : i < l.length,
        (fun e => sord_quad_match (permute ord p) e) l[i] = false := by
      intro i hij hi
      rw [← elt_eq_getElem hi]
      simp [hnmb i hij]
    rw [← filter_from_drop hnb]

/-- The all-wildcard search sord_begin returns the whole store. -/
theorem findList_begin {m : SordModel} {l0 : List Tup4}
    (hidx0 : getIndex m 0 = some l0)
    (hs : StrictSorted l0) (hsh : Shape l0)
    (hnq : m.n_quads = l0.length) :
    sordFindList m (⟨0, 0, 0, 0⟩ : Tup4) =
      (l0.filter (fun e => sord_quad_match (permute 0 ⟨0, 0, 0, 0⟩) e)).map
        (unpermute 0) := by
  have hall : l0.filter (fun e => sord_quad_match (permute 0 ⟨0, 0, 0, 0⟩) e) = l0 := by
    rw [List.filter_eq_self]
    intro a ha
    rfl
  rcases Nat.eq_zero_or_pos m.n_quads with h0 | h0
  · have hl0 : l0 = [] := List.eq_nil_of_length_eq_zero (by omega)
    subst hl0
    have hfind : sord_find m ⟨0, 0, 0, 0⟩ = none := by
      unfold sord_find
      rw [if_pos ⟨rfl, rfl, rfl, rfl⟩]
      unfold sord_begin
      rw [if_pos h0]
    unfold sordFindList
    rw [hfind]
    rfl
  · have hfind : sord_find m ⟨0, 0, 0, 0⟩ =
        some (sord_iter_new l0 ⟨0, 0, 0, 0⟩ 0 .all 0 0) := by
      unfold sord_find
      rw [if_pos ⟨rfl, rfl, rfl, rfl⟩]
      unfold sord_begin
      rw [if_neg (by omega), hidx0]
    have hnew : sord_iter_new l0 ⟨0, 0, 0, 0⟩ 0 .all 0 0 =
        ⟨l0, permute 0 ⟨0, 0, 0, 0⟩, 0, .all, 0, 0, false, decide (0 < 6)⟩ := rfl
    unfold sordFindList
    rw [hfind, hnew]
    dsimp only
    rw [collect_all hs hsh.g0 (l0.length + 1) 0 (by omega) (by omega)]
    rw [hall, List.drop_zero]

/-- Without graph search the probe chain of the one-bound-component rows
tests exactly the two candidate orders before the FILTER_ALL fallback. -/
theorem rangeOnly_false (m : SordModel) (g0 g1 np : Nat) :
    rangeOnly m false g0 g1 np =
      if (getIndex m g0).isSome then ⟨g0, .range, np⟩
      else if (getIndex m g1).isSome then ⟨g1, .range, np⟩
      else ⟨0, .filterAll, np⟩ := rfl

/-- Without graph search the probe chain of the two-bound-component rows
tests the two RANGE candidates, then the two FILTER_RANGE candidates with
prefix one, then falls back to FILTER_ALL. -/
theorem rangeFilter_false (m : SordModel) (g0 g1 np f0 f1 : Nat) :
    rangeFilter m false g0 g1 np f0 f1 =
      if (getIndex m g0).isSome then ⟨g0, .range, np⟩
      else if (getIndex m g1).isSome then ⟨g1, .range, np⟩
      else if (getIndex m f0).isSome then ⟨f0, .filterRange, 1⟩
      else if (getIndex m f1).isSome then ⟨f1, .filterRange, 1⟩
      else ⟨0, .filterAll, 1⟩ := rfl

end M

/-! ## The W layer: the interning world and the model operations in full -/

namespace W

/-- SordNodeType; the numeric values order URI before Blank before
Literal. -/
inductive SordNodeType where
  | uri
  | blank
  | literal
deriving DecidableEq, Repr

def SordNodeType.toNat : SordNodeType → Nat
  | .uri => 0
  | .blank => 1
  | .literal => 2

/-- A node record (struct SordNodeImpl).  buf holds the bytes of the
string without the trailing NUL; lang is the canonical interned language
tag, modeled by its bytes since canonicalization makes pointer identity
coincide with byte equality; datatype is a node reference, 0 for NULL. -/
structure SordNodeData where
  ntype : SordNodeType
  buf : List Nat
  n_bytes : Nat
  refs : Nat
  refs_as_obj : Nat
  datatype : Nat
  lang : Option (List Nat)
  flags : Nat
deriving DecidableEq, Repr

/-- The world: live nodes addressed by reference, the three interning
tables (names by byte string, language tags, literal members compared by
content), the running node count, and a fresh-address counter standing
for malloc. -/
structure SordWorld where
  nodes : List (Nat × SordNodeData)
  names : List (List Nat × Nat)
  langs : List (List Nat)
  literals : List Nat
  n_nodes : Nat
  next_ref : Nat
deriving DecidableEq, Repr

def findNode (w : SordWorld) (r : Nat) : Option SordNodeData :=
  (w.nodes.find? (fun p => p.1 == r)).map (fun p => p.2)

def setNode (w : SordWorld) (r : Nat) (d : SordNodeData) : SordWorld :=
  { w with nodes := w.nodes.map (fun p => if p.1 = r then (r, d) else p) }

def removeNode (w : SordWorld) (r : Nat) : SordWorld :=
  { w with nodes := w.nodes.filter (fun p => p.1 != r) }

/-- sord_world_new. -/
def sord_world_new : SordWorld := ⟨[], [], [], [], 0, 1⟩

/-- strcmp on NUL-terminated C strings, acting on the byte lists that
exclude the NUL (the terminator compares as 0, below every string
byte). -/
def strcmp : List Nat → List Nat → Int
  | [], [] => 0
  | [], y :: _ => -(y : Int)
  | x :: _, [] => (x : Int)
  | x :: xs, y :: ys => if x ≠ y then (x : Int) - (y : Int) else strcmp xs ys

/-- sord_node_compare.  The fuel only bounds the datatype recursion, which
in any state the source builds has depth at most one (datatypes are
URIs); a dangling reference (impossible in well-formed states, undefined
behavior in C) compares by address. -/
def sord_node_compare_go (w : SordWorld) : Nat → Nat → Nat → Int
  | 0, a, b => (a : Int) - (b : Int)
  | fuel + 1, a, b =>
    if a = b then 0
    else if a = 0 ∨ b = 0 then (a : Int) - (b : Int)
    else
      match findNode w a, findNode w b with
      | some da, some db =>
        if da.ntype ≠ db.ntype then (da.ntype.toNat : Int) - (db.ntype.toNat : Int)
        else
          match da.ntype with
          | .uri => strcmp da.buf db.buf
          | .blank => strcmp da.buf db.buf
          | .literal =>
            let c0 := strcmp da.buf db.buf
            if c0 ≠ 0 then c0
            else
              let c1 := sord_node_compare_go w fuel da.datatype db.datatype
              if c1 ≠ 0 then c1
              else
                match da.lang, db.lang with
                | none, none => 0
                | none, some _ => -1
                | some _, none => 1
                | some la, some lb => strcmp la lb
      | _, _ => (a : Int) - (b : Int)

def sord_node_compare (w : SordWorld) (a b : Nat) : Int :=
  sord_node_compare_go w (w.nodes.length + 1) a b

/-- sord_id_compare: pointer subtraction for equal or NULL operands,
content comparison otherwise. -/
def sord_id_compare (w : SordWorld) (a b : Nat) : Int :=
  if a = b ∨ a = 0 ∨ b = 0 then (a : Int) - (b : Int)
  else sord_node_compare w a b

/-- sord_quad_compare over world node contents. -/
def sord_quad_compare (w : SordWorld) (x y : Tup4) : Int :=
  let d0 := sord_id_compare w x.c0 y.c0
  if d0 ≠ 0 then d0
  else
    let d1 := sord_id_compare w x.c1 y.c1
    if d1 ≠ 0 then d1
    else
      let d2 := sord_id_compare w x.c2 y.c2
      if d2 ≠ 0 then d2
      else sord_id_compare w x.c3 y.c3

/-- sord_literal_equal on two node references (pointer equality or equal
string, language pointer and datatype pointer). -/
def literalEqual (w : SordWorld) (a b : Nat) : Bool :=
  a == b ||
    (match findNode w a, findNode w b with
     | some da, some db =>
       da.buf == db.buf && da.lang == db.lang && da.datatype == db.datatype
     | _, _ => false)

/-- g_hash_table_remove on the literal table: drop the entry whose key is
literal-equal to the node; none when the table has no such entry. -/
def literalsRemove (w : SordWorld) (r : Nat) : Option SordWorld :=
  if w.literals.any (fun e => literalEqual w r e) then
    some { w with literals := w.literals.eraseP (fun e => literalEqual w r e) }
  else none

/-- g_hash_table_remove on the names table, keyed by the byte string. -/
def namesRemove (w : SordWorld) (buf : List Nat) : Option SordWorld :=
  if w.names.any (fun p => p.1 == buf) then
    some { w with names := w.names.eraseP (fun p => p.1 == buf) }
  else none

/-- sord_node_free (flag true) and sord_node_free_internal (flag false) in
one fuel recursion; a failed table removal logs and returns without
freeing, exactly as the source does. -/
def node_free_go : Nat → Bool → SordWorld → Nat → SordWorld
  | 0, _, w, _ => w
  | fuel + 1, true, w, r =>
    if r = 0 then w
    else
      match findNode w r with
      | none => w
      | some d =>
        if d.refs = 0 then w
        else
          let w1 := setNode w r { d with refs := d.refs - 1 }
          if d.refs - 1 = 0 then node_free_go fuel false w1 r else w1
  | fuel + 1, false, w, r =>
    match findNode w r with
    | none => w
    | some d =>
      if d.ntype = .literal then
        match literalsRemove w r with
        | none => w
        | some w1 => removeNode (node_free_go fuel true w1 d.datatype) r
      else
        match namesRemove w d.buf with
        | none => w
        | some w1 => removeNode w1 r

def sord_node_free (w : SordWorld) (r : Nat) : SordWorld :=
  node_free_go (2 * w.nodes.length + 2) true w r

/-- sord_node_copy: bump the reference count, return the same pointer. -/
def sord_node_copy (w : SordWorld) (r : Nat) : SordWorld :=
  if r = 0 then w
  else
    match findNode w r with
    | none => w
    | some d => setNode w r { d with refs := d.refs + 1 }

/-- sord_add_quad_ref: bump total refs, and object refs for the object
position (SORD_OBJECT is tuple position 2). -/
def sord_add_quad_ref (w : SordWorld) (r : Nat) (i : Nat) : SordWorld :=
  if r = 0 then w
  else
    match findNode w r with
    | none => w
    | some d =>
      let d1 := { d with refs := d.refs + 1 }
      let d2 := if i = 2 then { d1 with refs_as_obj := d1.refs_as_obj + 1 } else d1
      setNode w r d2

/-- sord_drop_quad_ref: drop the counts and free the node at zero. -/
def sord_drop_quad_ref (w : SordWorld) (r : Nat) (i : Nat) : SordWorld :=
  if r = 0 then w
  else
    match findNode w r with
    | none => w
    | some d =>
      let d1 := if i = 2 then { d with refs_as_obj := d.refs_as_obj - 1 } else d
      let d2 := { d1 with refs := d1.refs - 1 }
      let w1 := setNode w r d2
      if d2.refs = 0 then node_free_go (2 * w.nodes.length + 2) false w1 r else w1

/-- sord_lookup_name: names-table lookup by byte string. -/
def sord_lookup_name (w : SordWorld) (str : List Nat) : Option Nat :=
  (w.names.find? (fun p => p.1 == str)).map (fun p => p.2)

/-- sord_new_node: allocate a fresh record with refs = 1 (malloc is the
fresh-address counter). -/
def sord_new_node (w : SordWorld) (t : SordNodeType) (data : List Nat)
    (n_bytes flags : Nat) : Nat × SordWorld :=
  let r := w.next_ref
  (r, { w with
        nodes := (r, ⟨t, data, n_bytes, 1, 0, 0, none, flags⟩) :: w.nodes,
        next_ref := r + 1 })

/-- sord_add_node: count one more node ever interned. -/
def sord_add_node (w : SordWorld) : SordWorld :=
  { w with n_nodes := w.n_nodes + 1 }

/-- sord_new_uri_counted: names-table hit bumps the existing node
(whatever its kind) and returns it; otherwise allocate, insert, count. -/
def sord_new_uri_counted (w : SordWorld) (str : List Nat) (str_len : Nat) :
    Nat × SordWorld :=
  match sord_lookup_name w str with
  | some r => (r, sord_node_copy w r)
  | none =>
    let (r, w1) := sord_new_node w .uri str (str_len + 1) 0
    let w2 := { w1 with names := (str, r) :: w1.names }
    (r, sord_add_node w2)

/-- sord_new_blank_counted: identical to the URI path except for the node
kind given to sord_new_node; in particular the same names table is
consulted first. -/
def sord_new_blank_counted (w : SordWorld) (str : List Nat) (str_len : Nat) :
    Nat × SordWorld :=
  match sord_lookup_name w str with
  | some r => (r, sord_node_copy w r)
  | none =>
    let (r, w1) := sord_new_node w .blank str (str_len + 1) 0
    let w2 := { w1 with names := (str, r) :: w1.names }
    (r, sord_add_node w2)

/-- sord_intern_lang: canonicalize a language tag (NULL stays NULL). -/
def sord_intern_lang (w : SordWorld) (lang : Option (List Nat)) :
    Option (List Nat) × SordWorld :=
  match lang with
  | none => (none, w)
  | some tag =>
    if w.langs.contains tag then (some tag, w)
    else (some tag, { w with langs := tag :: w.langs })

/-- sord_lookup_literal: literal-table lookup keyed by (string, datatype
pointer, canonical language pointer); the language is interned first. -/
def sord_lookup_literal (w : SordWorld) (t : Nat) (str : List Nat)
    (lang : Option (List Nat)) : Option Nat × SordWorld :=
  let (langc, w1) := sord_intern_lang w lang
  (w1.literals.find? (fun e =>
      match findNode w1 e with
      | some d => d.buf == str && d.lang == langc && d.datatype == t
      | none => false),
   w1)

/-- sord_new_literal_counted: hit bumps refs; miss allocates a literal
node whose datatype reference is itself counted (sord_node_copy), stores
it in the literal table and counts it. -/
def sord_new_literal_counted (w : SordWorld) (datatype : Nat)
    (str : List Nat) (str_len flags : Nat) (lang : Option (List Nat)) :
    Nat × SordWorld :=
  match sord_lookup_literal w datatype str lang with
  | (some r, w1) => (r, sord_node_copy w1 r)
  | (none, w1) =>
    let (r, w2) := sord_new_node w1 .literal str (str_len + 1) flags
    let w3 := sord_node_copy w2 datatype
    let (langc, w4) := sord_intern_lang w3 lang
    let w5 :=
      match findNode w4 r with
      | some d => setNode w4 r { d with datatype := datatype, lang := langc }
      | none => w4
    let w6 := { w5 with literals := r :: w5.literals }
    (r, sord_add_node w6)

/-! ### Model operations over the world -/

/-- A model together with the world it references (sord->world). -/
structure SordState where
  world : SordWorld
  model : SordModel
deriving DecidableEq, Repr

def setIndexList (m : SordModel) (i : Nat) (l : List Tup4) : SordModel :=
  { m with indices := m.indices.set i (some l) }

/-- g_sequence_insert_before at position i. -/
def insertAt (l : List Tup4) (i : Nat) (x : Tup4) : List Tup4 :=
  l.take i ++ x :: l.drop i

/-- sord_add_to_index: search, adjust to the lower bound, reject when the
found entry compares equal to the key, otherwise insert at the search
position.  Returns none for the duplicate case. -/
def sord_add_to_index (w : SordWorld) (mi : List Tup4) (tup : Tup4)
    (ord : Nat) : Option (List Tup4) :=
  let key := permute ord tup
  let cur := gseq_search (sord_quad_compare w) mi key
  let mtch := index_lower_bound_iter mi cur key
  if mtch ≠ mi.length ∧ sord_quad_compare w (mi.getD mtch ⟨0, 0, 0, 0⟩) key = 0 then
    none
  else some (insertAt mi cur key)

/-- The index loop of sord_add.  On a duplicate report the C code returns
false immediately, leaving any earlier indexes already modified (it
asserts this happens only at index 0). -/
def addToIndices (w : SordWorld) (tup : Tup4) :
    SordModel → List Nat → Bool × SordModel
  | m, [] => (true, m)
  | m, i :: rest =>
    match getIndex m i with
    | none => addToIndices w tup m rest
    | some mi =>
      match sord_add_to_index w mi tup i with
      | none => (false, m)
      | some mi2 => addToIndices w tup (setIndexList m i mi2) rest

/-- sord_add. -/
def sord_add (st : SordState) (tup : Tup4) : Bool × SordState :=
  if tup.c0 = 0 ∨ tup.c1 = 0 ∨ tup.c2 = 0 then (false, st)
  else
    match addToIndices st.world tup st.model (List.range 12) with
    | (false, m2) => (false, { st with model := m2 })
    | (true, m2) =>
      let w1 := sord_add_quad_ref st.world tup.c0 0
      let w2 := sord_add_quad_ref w1 tup.c1 1
      let w3 := sord_add_quad_ref w2 tup.c2 2
      let w4 := sord_add_quad_ref w3 tup.c3 3
      (true, ⟨w4, { m2 with n_quads := m2.n_quads + 1 }⟩)

/-- The index loop of sord_remove: g_sequence_search, and removal of the
element at the returned position whenever that position is not the end
iterator; a first-index miss returns with nothing dropped, a later miss
(impossible for coherent indexes) leaves earlier indexes modified. -/
def removeFromIndices (w : SordWorld) (tup : Tup4) :
    SordModel → List Nat → Bool × SordModel
  | m, [] => (true, m)
  | m, i :: rest =>
    match getIndex m i with
    | none => removeFromIndices w tup m rest
    | some mi =>
      let key := permute i tup
      let cur := gseq_search (sord_quad_compare w) mi key
      if cur ≠ mi.length then
        removeFromIndices w tup (setIndexList m i (mi.eraseIdx cur)) rest
      else (false, m)

/-- sord_remove. -/
def sord_remove (st : SordState) (tup : Tup4) : SordState :=
  match removeFromIndices st.world tup st.model (List.range 12) with
  | (false, m2) => { st with model := m2 }
  | (true, m2) =>
    let w1 := sord_drop_quad_ref st.world tup.c0 0
    let w2 := sord_drop_quad_ref w1 tup.c1 1
    let w3 := sord_drop_quad_ref w2 tup.c2 2
    let w4 := sord_drop_quad_ref w3 tup.c3 3
    ⟨w4, { m2 with n_quads := m2.n_quads - 1 }⟩

/-- The quads sord_free visits: sord_begin iterates the SPO index with
skip_graphs set, so of each run of keys sharing the leading triple only
the first is visited (the fuel is the list length). -/
def beginKept : Nat → List Tup4 → List Tup4
  | 0, _ => []
  | _, [] => []
  | fuel + 1, x :: rest =>
    x :: beginKept fuel (rest.dropWhile (fun y => M.first3eq y x))

/-- sord_free: drop the references of every visited quad, then release the
indexes (the freed model is represented with no indexes and no quads). -/
def sord_free (st : SordState) : SordState :=
  let visited :=
    if st.model.n_quads = 0 then []
    else
      match getIndex st.model 0 with
      | none => []
      | some spo => beginKept spo.length spo
  let w1 := visited.foldl
    (fun w q =>
      sord_drop_quad_ref (sord_drop_quad_ref (sord_drop_quad_ref
        (sord_drop_quad_ref w q.c0 0) q.c1 1) q.c2 2) q.c3 3)
    st.world
  ⟨w1, ⟨List.replicate 12 none, 0⟩⟩

/-- The public operations that touch a world or a model, for whole-run
invariants. -/
inductive SordOp where
  | newUri (buf : List Nat)
  | newBlank (buf : List Nat)
  | newLiteral (datatype : Nat) (buf : List Nat) (flags : Nat) (lang : Option (List Nat))
  | internLang (tag : List Nat)
  | nodeCopy (r : Nat)
  | nodeFree (r : Nat)
  | modelAdd (t : Tup4)
  | modelRemove (t : Tup4)
  | modelNew (mask : Nat) (graphs : Bool)
  | modelFree
deriving DecidableEq, Repr

def applyOp (st : SordState) : SordOp → SordState
  | .newUri buf => { st with world := (sord_new_uri_counted st.world buf buf.length).2 }
  | .newBlank buf => { st with world := (sord_new_blank_counted st.world buf buf.length).2 }
  | .newLiteral dt buf fl lang =>
    { st with world := (sord_new_literal_counted st.world dt buf buf.length fl lang).2 }
  | .internLang tag => { st with world := (sord_intern_lang st.world (some tag)).2 }
  | .nodeCopy r => { st with world := sord_node_copy st.world r }
  | .nodeFree r => { st with world := sord_node_free st.world r }
  | .modelAdd t => (sord_add st t).2
  | .modelRemove t => sord_remove st t
  | .modelNew mask graphs => { st with model := sord_new mask graphs }
  | .modelFree => sord_free st

end W

/-! ## Concrete states used by counterexamples and bug evaluations -/

/-- A reachable two-quad model: the same triple (1, 2, 3) stored under
graphs 4 and 5, with only the mandatory SPO index materialized (the state
produced by two sord_add calls on sord_new with an empty mask). -/
def mC1 : SordModel :=
  ⟨[some [⟨1, 2, 3, 4⟩, ⟨1, 2, 3, 5⟩], none, none, none, none, none,
    none, none, none, none, none, none], 2⟩

/-- C1 counterexample: in mC1 the pattern (1, 2, 3, NULL) matches both
stored quads, but sord_find iterates the SPO index with skip_graphs set,
so the quad (1, 2, 3, 5) is never yielded: the iterator does not yield
exactly the matching quads. -/
theorem C1_counterexample :
    M.WFModel mC1 ∧
    (⟨1, 2, 3, 5⟩ : Tup4) ∈ M.storedQuads mC1 ∧
    M.patMatches ⟨1, 2, 3, 0⟩ ⟨1, 2, 3, 5⟩ = true ∧
    (⟨1, 2, 3, 5⟩ : Tup4) ∉ M.sordFindList mC1 ⟨1, 2, 3, 0⟩ := by decide

/-- C1 (amended): in a well-formed store whose quads all live in the
default graph, sord_find on a triple pattern (graph component NULL)
followed by full iteration yields each matching stored quad exactly
once: the result list is duplicate-free, and a quad appears in it
exactly when it is stored and matches the pattern componentwise. -/
theorem C1_find_exact_amended (m : SordModel) (hwf : M.WFModel m)
    (hgd : M.DefaultGraphOnly m) (p : Tup4) (hp3 : p.c3 = 0) :
    (M.sordFindList m p).Nodup ∧
    ∀ q, q ∈ M.sordFindList m p ↔
      q ∈ M.storedQuads m ∧ M.patMatches p q = true := by
  have hwf' := hwf
  obtain ⟨hlen12, hspo, hnq, hnzq, hok⟩ := hwf'
  obtain ⟨l0, hl0⟩ : ∃ l0, getIndex m 0 = some l0 := by
    rcases hgi : getIndex m 0 with _ | l0
    · rw [hgi] at hspo
      simp at hspo
    · exact ⟨l0, rfl⟩
  have hok0 := M.indexOK_some hl0 (hok 0 (by omega))
  have hshape0 := M.shape_of_index hwf hgd (by omega) hl0
  have hst : M.storedQuads m = l0 := by
    unfold M.storedQuads
    rw [hl0]
  by_cases hc0 : p.c0 = 0 <;> by_cases hc1 : p.c1 = 0 <;> by_cases hc2 : p.c2 = 0
  · have hp : p = ⟨0, 0, 0, 0⟩ := by
      rw [Tup4.eq_iff]
      exact ⟨hc0, hc1, hc2, hp3⟩
    subst hp
    have hnql : m.n_quads = l0.length := by rw [hnq, hst]
    exact M.findList_conclude hwf hgd (by omega) hl0 rfl
      (M.findList_begin hl0 hok0.1 hshape0 hnql)
  · have he : sord_best_index m p = rangeOnly m false 2 3 1 := by
      simp [sord_best_index, hc0, hc1, hc2, hp3]
    by_cases hi2 : (getIndex m 2).isSome
    · obtain ⟨l2, hl2⟩ := Option.isSome_iff_exists.mp hi2
      have hbi : sord_best_index m p = ⟨2, .range, 1⟩ := by
        rw [he, M.rangeOnly_false, if_pos hi2]
      exact M.findList_conclude hwf hgd (by omega) hl2 hp3
        (M.findList_range hbi hl2 (M.indexOK_some hl2 (hok 2 (by omega))).1
          (M.shape_of_index hwf hgd (by omega) hl2) (by omega) (by omega)
          (fun i hi => by interval_cases i; exact hc2)
          (fun i hi => by
            rcases i with _ | _ | _ | _ | i
            · omega
            · exact hc1
            · exact hc0
            · exact hp3
            · rfl))
    · by_cases hi3 : (getIndex m 3).isSome
      · obtain ⟨l3, hl3⟩ := Option.isSome_iff_exists.mp hi3
        have hbi : sord_best_index m p = ⟨3, .range, 1⟩ := by
          rw [he, M.rangeOnly_false, if_neg hi2, if_pos hi3]
        exact M.findList_conclude hwf hgd (by omega) hl3 hp3
          (M.findList_range hbi hl3 (M.indexOK_some hl3 (hok 3 (by omega))).1
            (M.shape_of_index hwf hgd (by omega) hl3) (by omega) (by omega)
            (fun i hi => by interval_cases i; exact hc2)
            (fun i hi => by
              rcases i with _ | _ | _ | _ | i
              · omega
              · exact hc0
              · exact hc1
              · exact hp3
              · rfl))
      · have hbi : sord_best_index m p = ⟨0, .filterAll, 1⟩ := by
          rw [he, M.rangeOnly_false, if_neg hi2, if_neg hi3]
        exact M.findList_conclude hwf hgd (by omega) hl0 hp3
          (M.findList_fa hbi hl0 hok0.1 hshape0 (Or.inl hc0) hp3
            (fun hcon => hc2 hcon.2.2.1))
  · have he : sord_best_index m p = rangeOnly m false 5 4 1 := by
      simp [sord_best_index, hc0, hc1, hc2, hp3]
    by_cases hi5 : (getIndex m 5).isSome
    · obtain ⟨l5, hl5⟩ := Option.isSome_iff_exists.mp hi5
      have hbi : sord_best_index m p = ⟨5, .range, 1⟩ := by
        rw [he, M.rangeOnly_false, if_pos hi5]
      exact M.findList_conclude hwf hgd (by omega) hl5 hp3
        (M.findList_range hbi hl5 (M.indexOK_some hl5 (hok 5 (by omega))).1
          (M.shape_of_index hwf hgd (by omega) hl5) (by omega) (by omega)
          (fun i hi => by interval_cases i; exact hc1)
          (fun i hi => by
            rcases i with _ | _ | _ | _ | i
            · omega
            · exact hc2
            · exact hc0
            · exact hp3
            · rfl))
    · by_cases hi4 : (getIndex m 4).isSome
      · obtain ⟨l4, hl4⟩ := Option.isSome_iff_exists.mp hi4
        have hbi : sord_best_index m p = ⟨4, .range, 1⟩ := by
          rw [he, M.rangeOnly_false, if_neg hi5, if_pos hi4]
        exact M.findList_conclude hwf hgd (by omega) hl4 hp3
          (M.findList_range hbi hl4 (M.indexOK_some hl4 (hok 4 (by omega))).1
            (M.shape_of_index hwf hgd (by omega) hl4) (by omega) (by omega)
            (fun i hi => by interval_cases i; exact hc1)
            (fun i hi => by
              rcases i with _ | _ | _ | _ | i
              · omega
              · exact hc0
              · exact hc2
              · exact hp3
              · rfl))
      · have hbi : sord_best_index m p = ⟨0, .filterAll, 1⟩ := by
          rw [he, M.rangeOnly_false, if_neg hi5, if_neg hi4]
        exact M.findList_conclude hwf hgd (by omega) hl0 hp3
          (M.findList_fa hbi hl0 hok0.1 hshape0 (Or.inl hc0) hp3
            (fun hcon => hc1 hcon.2.1))
  · have he : sord_best_index m p = rangeFilter m false 2 5 2 3 4 := by
      simp [sord_best_index, hc0, hc1, hc2, hp3]
    by_cases hi2 : (getIndex m 2).isSome
    · obtain ⟨l2, hl2⟩ := Option.isSome_iff_exists.mp hi2
      have hbi : sord_best_index m p = ⟨2, .range, 2⟩ := by
        rw [he, M.rangeFilter_false, if_pos hi2]
      exact M.findList_conclude hwf hgd (by omega) hl2 hp3
        (M.findList_range hbi hl2 (M.indexOK_some hl2 (hok 2 (by omega))).1
          (M.shape_of_index hwf hgd (by omega) hl2) (by omega) (by omega)
          (fun i hi => by
            interval_cases i
            · exact hc2
            · exact hc1)
          (fun i hi => by
            rcases i with _ | _ | _ | _ | i
            · omega
            · omega
            · exact hc0
            · exact hp3
            · rfl))
    · by_cases hi5 : (getIndex m 5).isSome
      · obtain ⟨l5, hl5⟩ := Option.isSome_iff_exists.mp hi5
        have hbi : sord_best_index m p = ⟨5, .range, 2⟩ := by
          rw [he, M.rangeFilter_false, if_neg hi2, if_pos hi5]
        exact M.findList_conclude hwf hgd (by omega) hl5 hp3
          (M.findList_range hbi hl5 (M.indexOK_some hl5 (hok 5 (by omega))).1
            (M.shape_of_index hwf hgd (by omega) hl5) (by omega) (by omega)
            (fun i hi => by
              interval_cases i
              · exact hc1
              · exact hc2)
            (fun i hi => by
              rcases i with _ | _ | _ | _ | i
              · omega
              · omega
              · exact hc0
              · exact hp3
              · rfl))
      · by_cases hf3 : (getIndex m 3).isSome
        · obtain ⟨l3, hl3⟩ := Option.isSome_iff_exists.mp hf3
          have hbi : sord_best_index m p = ⟨3, .filterRange, 1⟩ := by
            rw [he, M.rangeFilter_false, if_neg hi2, if_neg hi5, if_pos hf3]
          exact M.findList_conclude hwf hgd (by omega) hl3 hp3
            (M.findList_fr hbi hl3 (M.indexOK_some hl3 (hok 3 (by omega))).1
              (M.shape_of_index hwf hgd (by omega) hl3) hc2 hc0 hc1 hp3)
        · by_cases hf4 : (getIndex m 4).isSome
          · obtain ⟨l4, hl4⟩ := Option.isSome_iff_exists.mp hf4
            have hbi : sord_best_index m p = ⟨4, .filterRange, 1⟩ := by
              rw [he, M.rangeFilter_false, if_neg hi2, if_neg hi5, if_neg hf3,
                if_pos hf4]
            exact M.findList_conclude hwf hgd (by omega) hl4 hp3
              (M.findList_fr hbi hl4 (M.indexOK_some hl4 (hok 4 (by omega))).1
                (M.shape_of_index hwf hgd (by omega) hl4) hc1 hc0 hc2 hp3)
          · have hbi : sord_best_index m p = ⟨0, .filterAll, 1⟩ := by
              rw [he, M.rangeFilter_false, if_neg hi2, if_neg hi5, if_neg hf3,
                if_neg hf4]
            exact M.findList_conclude hwf hgd (by omega) hl0 hp3
              (M.findList_fa hbi hl0 hok0.1 hshape0 (Or.inl hc0) hp3
                (fun hcon => hc1 hcon.2.1))
  · have he : sord_best_index m p = rangeOnly m false 0 1 1 := by
      simp [sord_best_index, hc0, hc1, hc2, hp3]
    have hbi : sord_best_index m p = ⟨0, .range, 1⟩ := by
      rw [he, M.rangeOnly_false, if_pos hspo]
    exact M.findList_conclude hwf hgd (by omega) hl0 hp3
      (M.findList_range hbi hl0 hok0.1 hshape0 (by omega) (by omega)
        (fun i hi => by interval_cases i; exact hc0)
        (fun i hi => by
          rcases i with _ | _ | _ | _ | i
          · omega
          · exact hc1
          · exact hc2
          · exact hp3
          · rfl))
  · have he : sord_best_index m p = rangeFilter m false 1 3 2 0 2 := by
      simp [sord_best_index, hc0, hc1, hc2, hp3]
    by_cases hi1 : (getIndex m 1).isSome
    · obtain ⟨l1, hl1⟩ := Option.isSome_iff_exists.mp hi1
      have hbi : sord_best_index m p = ⟨1, .range, 2⟩ := by
        rw [he, M.rangeFilter_false, if_pos hi1]
      exact M.findList_conclude hwf hgd (by omega) hl1 hp3
        (M.findList_range hbi hl1 (M.indexOK_some hl1 (hok 1 (by omega))).1
          (M.shape_of_index hwf hgd (by omega) hl1) (by omega) (by omega)
          (fun i hi => by
            interval_cases i
            · exact hc0
            · exact hc2)
          (fun i hi => by
            rcases i with _ | _ | _ | _ | i
            · omega
            · omega
            · exact hc1
            · exact hp3
            · rfl))
    · by_cases hi3 : (getIndex m 3).isSome
      · obtain ⟨l3, hl3⟩ := Option.isSome_iff_exists.mp hi3
        have hbi : sord_best_index m p = ⟨3, .range, 2⟩ := by
          rw [he, M.rangeFilter_false, if_neg hi1, if_pos hi3]
        exact M.findList_conclude hwf hgd (by omega) hl3 hp3
          (M.findList_range hbi hl3 (M.indexOK_some hl3 (hok 3 (by omega))).1
            (M.shape_of_index hwf hgd (by omega) hl3) (by omega) (by omega)
            (fun i hi => by
              interval_cases i
              · exact hc2
              · exact hc0)
            (fun i hi => by
              rcases i with _ | _ | _ | _ | i
              · omega
              · omega
              · exact hc1
              · exact hp3
              · rfl))
      · have hbi : sord_best_index m p = ⟨0, .filterRange, 1⟩ := by
          rw [he, M.rangeFilter_false, if_neg hi1, if_neg hi3, if_pos hspo]
        exact M.findList_conclude hwf hgd (by omega) hl0 hp3
          (M.findList_fr hbi hl0 hok0.1 hshape0 hc0 hc1 hc2 hp3)
  · have he : sord_best_index m p = rangeFilter m false 0 4 2 1 5 := by
      simp [sord_best_index, hc0, hc1, hc2, hp3]
    have hbi : sord_best_index m p = ⟨0, .range, 2⟩ := by
      rw [he, M.rangeFilter_false, if_pos hspo]
    exact M.findList_conclude hwf hgd (by omega) hl0 hp3
      (M.findList_range hbi hl0 hok0.1 hshape0 (by omega) (by omega)
        (fun i hi => by
          interval_cases i
          · exact hc0
          · exact hc1)
        (fun i hi => by
          rcases i with _ | _ | _ | _ | i
          · omega
          · omega
          · exact hc2
          · exact hp3
          · rfl))
  · have hbi : sord_best_index m p = ⟨0, .single, 0⟩ := by
      simp [sord_best_index, hc0, hc1, hc2, hp3]
    exact M.findList_conclude hwf hgd (by omega) hl0 hp3
      (M.findList_single hbi hl0 hok0.1 hshape0
        (fun i hi => by
          interval_cases i
          · exact hc0
          · exact hc1
          · exact hc2)
        (fun i hi => by
          rcases i with _ | _ | _ | _ | i
          · omega
          · omega
          · omega
          · exact hp3
          · rfl))

/-- A one-quad default-graph store over URI nodes 1, 2, 3 with only the
mandatory SPO index, used to witness the amended C1 theorem. -/
def mC1w : SordModel :=
  ⟨[some [⟨1, 2, 3, 0⟩], none, none, none, none, none,
    none, none, none, none, none, none], 1⟩

/-- Witness for the amended C1 theorem: a concrete well-formed
default-graph store and the pattern (1, NULL, NULL, NULL). -/
theorem C1_witness :
    (M.sordFindList mC1w ⟨1, 0, 0, 0⟩).Nodup ∧
    ((⟨1, 2, 3, 0⟩ : Tup4) ∈ M.sordFindList mC1w ⟨1, 0, 0, 0⟩ ↔
      (⟨1, 2, 3, 0⟩ : Tup4) ∈ M.storedQuads mC1w ∧
      M.patMatches ⟨1, 0, 0, 0⟩ ⟨1, 2, 3, 0⟩ = true) :=
  ⟨(C1_find_exact_amended mC1w (by decide) (by decide) ⟨1, 0, 0, 0⟩ rfl).1,
   (C1_find_exact_amended mC1w (by decide) (by decide) ⟨1, 0, 0, 0⟩ rfl).2
     ⟨1, 2, 3, 0⟩⟩

/-- C5 counterexample: with only the OSP triple order selected (mask bit
3) and graphs enabled, the model materializes SPO, OSP and GOSP.  For a
pattern with object and graph bound, the spec table prescribes prefix
length 1 + 1 = 2 for the graph-prefixed second preference GOSP, but the
code probes GOPS first (missing) and that probe also increments the
prefix, so GOSP is returned in RANGE mode with prefix length 3. -/
theorem C5_counterexample :
    sord_best_index (sord_new 8 true) ⟨0, 0, 7, 9⟩ = ⟨9, .range, 3⟩ ∧
    (sord_best_index (sord_new 8 true) ⟨0, 0, 7, 9⟩).nPfx ≠ 2 := by decide

/-- Modelled from the spec (section 4.3, preference table): one candidate
of the table, graph-prefixed when the graph is bound, returned with the
given prefix length when its index is materialized. -/
def specCand (m : SordModel) (g : Bool) (mode : SearchMode) (base pfx : Nat) :
    Option BestIdx :=
  let ord := if g then base + 6 else base
  if (getIndex m ord).isSome then some ⟨ord, mode, pfx⟩ else none

/-- Modelled from the spec preference table, as amended: try the two
preferred RANGE orders, then the FILTER_RANGE fallback pair (listed
prefix 1), then the final fallback.  The amendment is the prefix
accounting: each graph-prefixed candidate probe adds one more to the
prefix, so with a bound graph the first candidate carries listed + 1 and
the second listed + 2 (fallback pair: 2 and 3), instead of a uniform
listed + 1. -/
def specRow (m : SordModel) (g : Bool) (a1 a2 listed : Nat)
    (fb : Option (Nat × Nat)) : BestIdx :=
  let gb := if g then 1 else 0
  match specCand m g .range a1 (listed + gb) with
  | some r => r
  | none =>
    match specCand m g .range a2 (listed + 2 * gb) with
    | some r => r
    | none =>
      match fb with
      | some (f1, f2) =>
        (match specCand m g .filterRange f1 (1 + gb) with
         | some r => r
         | none =>
           match specCand m g .filterRange f2 (1 + 2 * gb) with
           | some r => r
           | none =>
             if g then ⟨6, .filterRange, 1⟩ else ⟨0, .filterAll, 1 + 2 * gb⟩)
      | none =>
        if g then ⟨6, .filterRange, 1⟩ else ⟨0, .filterAll, listed + 2 * gb⟩

/-- Modelled from the spec (section 4.3): the full preference table, rows
keyed by the bound components among S, P, O; order numbers are SPO 0,
SOP 1, OPS 2, OSP 3, PSO 4, POS 5. -/
def spec_best_index (m : SordModel) (p : Tup4) : BestIdx :=
  let g : Bool := decide (p.c3 ≠ 0)
  match decide (p.c0 ≠ 0), decide (p.c1 ≠ 0), decide (p.c2 ≠ 0) with
  | false, false, false => ⟨if g then 6 else 0, .all, 0⟩
  | false, false, true => specRow m g 2 3 1 none
  | false, true, false => specRow m g 5 4 1 none
  | false, true, true => specRow m g 2 5 2 (some (3, 4))
  | true, false, false => specRow m g 0 1 1 none
  | true, false, true => specRow m g 1 3 2 (some (0, 2))
  | true, true, false => specRow m g 0 4 2 (some (1, 5))
  | true, true, true => ⟨if g then 6 else 0, .single, 0⟩

/-- C5 amended: sord_best_index selects mode, order and prefix length by
the spec preference table, with the prefix rule amended so that every
probe of a graph-prefixed candidate adds one to the prefix length (the
first candidate returns the listed prefix plus one, the second the
listed prefix plus two, and the filter fallbacks 2 and 3) — without a
bound graph the table is followed exactly. -/
theorem C5_best_index_amended (m : SordModel) (p : Tup4) :
    sord_best_index m p = spec_best_index m p := by
  by_cases h0 : p.c0 = 0 <;> by_cases h1 : p.c1 = 0 <;> by_cases h2 : p.c2 = 0 <;>
    by_cases h3 : p.c3 = 0 <;>
    simp only [sord_best_index, spec_best_index, specRow, specCand,
      rangeOnly, rangeFilter, sord_has_index] <;>
    simp [h0, h1, h2, h3] <;>
    split_ifs <;> simp_all

/-- The sorted index of the C6 counterexample: one triple stored in the
default graph and in graphs 3 and 5. -/
def lC6 : List Tup4 := [⟨1, 1, 1, 0⟩, ⟨1, 1, 1, 3⟩, ⟨1, 1, 1, 5⟩]

/-- C6 counterexample: for the search key (1, 1, 1, 5) the leftmost
matching entry of lC6 is at position 0 (the stored NULL graph matches the
bound graph under the symmetric wildcard test), yet index_lower_bound
stops its backward scan after the non-matching middle entry and returns
position 2. -/
theorem C6_counterexample :
    M.StrictSorted lC6 ∧
    sord_quad_match ⟨1, 1, 1, 5⟩ (lC6.getD 0 ⟨0, 0, 0, 0⟩) = true ∧
    index_lower_bound M.sord_quad_compare lC6 ⟨1, 1, 1, 5⟩ = 2 ∧
    (2 : Nat) ≠ 0 := by decide

/-- C6 amended: for every strictly sorted index and every search key
whose non-NULL components occupy a prefix of the key positions (non-NULL
exactly before n) while every index entry is non-NULL on those positions,
index_lower_bound returns the position of the leftmost matching entry
whenever some entry matches.  (Without these two profile conditions the
claim fails, as the counterexample shows: stored NULL graphs match bound
key components symmetrically and the single backward step is not enough.) -/
theorem C6_lower_bound_leftmost_amended (l : List Tup4) (key : Tup4) (n j : Nat)
    (hs : M.StrictSorted l)
    (hk1 : ∀ i < n, comp key i ≠ 0)
    (hk2 : ∀ i, n ≤ i → comp key i = 0)
    (he : ∀ e ∈ l, ∀ i < n, comp e i ≠ 0)
    (hj : j < l.length)
    (hmj : sord_quad_match key (M.elt l j) = true)
    (hmin : ∀ j' < j, ¬ sord_quad_match key (M.elt l j') = true) :
    index_lower_bound M.sord_quad_compare l key = j :=
  M.index_lower_bound_leftmost hs hk1 hk2 he hj hmj hmin

/-- C6 amended witness: a two-element sorted index and the prefix-shaped
key (1, 2, NULL, NULL), whose leftmost match sits at position 0. -/
theorem C6_witness :
    index_lower_bound M.sord_quad_compare
      [⟨1, 2, 3, 0⟩, ⟨1, 2, 4, 0⟩] ⟨1, 2, 0, 0⟩ = 0 :=
  C6_lower_bound_leftmost_amended [⟨1, 2, 3, 0⟩, ⟨1, 2, 4, 0⟩] ⟨1, 2, 0, 0⟩ 2 0
    (by decide) (by decide)
    (by
      intro i hi
      rcases i with _ | _ | _ | _ | i
      · exact absurd hi (by omega)
      · exact absurd hi (by omega)
      · rfl
      · rfl
      · rfl)
    (by decide) (by decide) (by decide) (by omega)

/-- URI node record helper for concrete worlds. -/
def uriND (b : List Nat) (r o : Nat) : W.SordNodeData :=
  ⟨W.SordNodeType.uri, b, b.length + 1, r, o, 0, none, 0⟩

/-- The C2 state: one stored quad (2, 3, 4, NULL); nodes 2, 3, 4 carry one
model reference plus the caller reference, node 1 only the caller
reference. -/
def stC2 : W.SordState :=
  ⟨⟨[(1, uriND [97] 1 0), (2, uriND [98] 2 0), (3, uriND [99] 2 0),
     (4, uriND [100] 2 1)],
    [([97], 1), ([98], 2), ([99], 3), ([100], 4)], [], [], 4, 5⟩,
   ⟨[some [⟨2, 3, 4, 0⟩], none, none, none, none, none,
     none, none, none, none, none, none], 1⟩⟩

/-- C2 (code bug evaluation): the quad (1, 3, 4, NULL) is absent from
stC2, yet sord_remove is not a no-op: g_sequence_search returns the
insertion position of the key, which is the position of the unrelated
stored quad (2, 3, 4, NULL), and the code removes whatever that position
holds, then drops the reference counts of the nodes of the absent quad
(here reducing node 3 from 2 to 1) and decrements num_quads to 0. -/
theorem C2_remove_absent_bug :
    (⟨1, 3, 4, 0⟩ : Tup4) ∉ M.storedQuads stC2.model ∧
    stC2.model.n_quads = 1 ∧
    (W.sord_remove stC2 ⟨1, 3, 4, 0⟩).model.n_quads = 0 ∧
    getIndex (W.sord_remove stC2 ⟨1, 3, 4, 0⟩).model 0 = some [] ∧
    (W.findNode stC2.world 3).map (fun d => d.refs) = some 2 ∧
    (W.findNode (W.sord_remove stC2 ⟨1, 3, 4, 0⟩).world 3).map (fun d => d.refs) =
      some 1 := by decide

/-- The C3 state: an empty model over three freshly interned URI nodes. -/
def stC3 : W.SordState :=
  ⟨⟨[(1, uriND [97] 1 0), (2, uriND [98] 1 0), (3, uriND [99] 1 0)],
    [([97], 1), ([98], 2), ([99], 3)], [], [], 3, 4⟩,
   ⟨[some [], none, none, none, none, none,
     none, none, none, none, none, none], 0⟩⟩

/-- C3 (code bug evaluation): adding (1, 2, 3, NULL) to the empty stC3
succeeds, but the following sord_remove of the same quad is a silent
no-op, because g_sequence_search returns the position after the equal
key, which here is the end iterator: num_quads stays 1 instead of
returning to 0 and the reference count of node 1 stays 2 instead of
returning to 1 — add then remove does not restore the pre-add state. -/
theorem C3_roundtrip_bug :
    stC3.model.n_quads = 0 ∧
    (W.findNode stC3.world 1).map (fun d => d.refs) = some 1 ∧
    (W.sord_add stC3 ⟨1, 2, 3, 0⟩).1 = true ∧
    (W.sord_remove (W.sord_add stC3 ⟨1, 2, 3, 0⟩).2 ⟨1, 2, 3, 0⟩).model.n_quads = 1 ∧
    (W.findNode (W.sord_remove (W.sord_add stC3 ⟨1, 2, 3, 0⟩).2
        ⟨1, 2, 3, 0⟩).world 1).map (fun d => d.refs) = some 2 := by decide

/-- The C4 state: the triple (1, 2, 3) stored in the default graph and in
graph 5 (a state reachable by two sord_add calls). -/
def stC4 : W.SordState :=
  ⟨⟨[(1, uriND [97] 3 0), (2, uriND [98] 3 0), (3, uriND [99] 3 2),
     (5, uriND [103] 2 0)],
    [([97], 1), ([98], 2), ([99], 3), ([103], 5)], [], [], 4, 6⟩,
   ⟨[some [⟨1, 2, 3, 0⟩, ⟨1, 2, 3, 5⟩], none, none, none, none, none,
     none, none, none, none, none, none], 2⟩⟩

/-- C4 (code bug evaluation): the quad (1, 2, 3, 5) is already present in
stC4, yet sord_add returns true and stores it a second time: the
duplicate check walks the lower bound back to the wildcard-matching entry
(1, 2, 3, NULL), whose exact comparison with the key fails, so the quad
is inserted again and num_quads grows to 3. -/
theorem C4_duplicate_add_bug :
    (⟨1, 2, 3, 5⟩ : Tup4) ∈ M.storedQuads stC4.model ∧
    (W.sord_add stC4 ⟨1, 2, 3, 5⟩).1 = true ∧
    (W.sord_add stC4 ⟨1, 2, 3, 5⟩).2.model.n_quads = 3 ∧
    getIndex (W.sord_add stC4 ⟨1, 2, 3, 5⟩).2.model 0 =
      some [⟨1, 2, 3, 0⟩, ⟨1, 2, 3, 5⟩, ⟨1, 2, 3, 5⟩] := by decide

namespace W

/-- find? after the in-place update of an assoc list entry. -/
theorem find_set_aux (l : List (Nat × SordNodeData)) (r : Nat) (d : SordNodeData)
    (h : ((l.find? (fun p => p.1 == r)).map (fun p => p.2)).isSome) :
    (((l.map (fun p => if p.1 = r then (r, d) else p)).find?
        (fun p => p.1 == r)).map (fun p => p.2)) = some d := by
  induction l with
  | nil => simp at h
  | cons a t ih =>
    by_cases ha : a.1 = r
    · simp [List.find?, if_pos ha]
    · have hb : (a.1 == r) = false := by simpa using ha
      simp only [List.map_cons, if_neg ha, List.find?, hb] at h ⊢
      exact ih h

/-- Updating a present node makes findNode return the new record. -/
theorem findNode_setNode_self {w : SordWorld} {r : Nat} {d0 d : SordNodeData}
    (h : findNode w r = some d0) :
    findNode (setNode w r d) r = some d := by
  unfold findNode setNode at *
  exact find_set_aux w.nodes r d (by rw [h]; rfl)

theorem n_nodes_setNode (w : SordWorld) (r : Nat) (d : SordNodeData) :
    (setNode w r d).n_nodes = w.n_nodes := rfl

theorem n_nodes_removeNode (w : SordWorld) (r : Nat) :
    (removeNode w r).n_nodes = w.n_nodes := rfl

theorem n_nodes_sord_node_copy (w : SordWorld) (r : Nat) :
    (sord_node_copy w r).n_nodes = w.n_nodes := by
  unfold sord_node_copy
  split
  · rfl
  · split <;> rfl

theorem n_nodes_literalsRemove {w : SordWorld} {r : Nat} {w1 : SordWorld}
    (h : literalsRemove w r = some w1) : w1.n_nodes = w.n_nodes := by
  unfold literalsRemove at h
  split at h
  · cases h; rfl
  · cases h

theorem n_nodes_namesRemove {w : SordWorld} {buf : List Nat} {w1 : SordWorld}
    (h : namesRemove w buf = some w1) : w1.n_nodes = w.n_nodes := by
  unfold namesRemove at h
  split at h
  · cases h; rfl
  · cases h

theorem n_nodes_node_free_go :
    ∀ (fuel : Nat) (b : Bool) (w : SordWorld) (r : Nat),
      (node_free_go fuel b w r).n_nodes = w.n_nodes := by
  intro fuel
  induction fuel with
  | zero => intro b w r; rfl
  | succ f ih =>
    intro b w r
    cases b
    · unfold node_free_go
      rcases hf : findNode w r with _ | d
      · rfl
      · simp only [hf]
        split
        · rcases hr : literalsRemove w r with _ | w1
          · rfl
          · simp only [hr, n_nodes_removeNode, ih, n_nodes_literalsRemove hr]
        · rcases hn : namesRemove w d.buf with _ | w1
          · rfl
          · simp only [hn, n_nodes_removeNode, n_nodes_namesRemove hn]
    · unfold node_free_go
      split
      · rfl
      · rcases hf : findNode w r with _ | d
        · rfl
        · simp only [hf]
          split
          · rfl
          · split
            · rw [ih, n_nodes_setNode]
            · rw [n_nodes_setNode]

theorem n_nodes_sord_node_free (w : SordWorld) (r : Nat) :
    (sord_node_free w r).n_nodes = w.n_nodes :=
  n_nodes_node_free_go _ true w r

theorem n_nodes_add_quad_ref (w : SordWorld) (r i : Nat) :
    (sord_add_quad_ref w r i).n_nodes = w.n_nodes := by
  unfold sord_add_quad_ref
  repeat' split
  all_goals simp [n_nodes_setNode]

theorem n_nodes_drop_quad_ref (w : SordWorld) (r i : Nat) :
    (sord_drop_quad_ref w r i).n_nodes = w.n_nodes := by
  unfold sord_drop_quad_ref
  repeat' split
  all_goals
    simp [apply_ite SordWorld.n_nodes, n_nodes_node_free_go, n_nodes_setNode]

theorem n_nodes_intern_lang (w : SordWorld) (lang : Option (List Nat)) :
    (sord_intern_lang w lang).2.n_nodes = w.n_nodes := by
  unfold sord_intern_lang
  rcases lang with _ | tag
  · rfl
  · by_cases hc : w.langs.contains tag = true
    · simp only [if_pos hc]
    · simp only [if_neg hc]

theorem n_nodes_lookup_literal (w : SordWorld) (t : Nat) (s : List Nat)
    (lang : Option (List Nat)) :
    (sord_lookup_literal w t s lang).2.n_nodes = w.n_nodes := by
  unfold sord_lookup_literal
  rcases hi : sord_intern_lang w lang with ⟨lc, w2⟩
  have h2 := n_nodes_intern_lang w lang
  rw [hi] at h2
  exact h2

theorem n_nodes_sord_add (st : SordState) (t : Tup4) :
    (sord_add st t).2.world.n_nodes = st.world.n_nodes := by
  unfold sord_add
  split
  · rfl
  · rcases addToIndices st.world t st.model (List.range 12) with ⟨_ | _, m2⟩ <;>
      simp [n_nodes_add_quad_ref]

theorem n_nodes_sord_remove (st : SordState) (t : Tup4) :
    (sord_remove st t).world.n_nodes = st.world.n_nodes := by
  unfold sord_remove
  rcases removeFromIndices st.world t st.model (List.range 12) with ⟨_ | _, m2⟩ <;>
    simp [n_nodes_drop_quad_ref]

theorem n_nodes_drop4_foldl (visited : List Tup4) (w : SordWorld) :
    (visited.foldl
      (fun w q =>
        sord_drop_quad_ref (sord_drop_quad_ref (sord_drop_quad_ref
          (sord_drop_quad_ref w q.c0 0) q.c1 1) q.c2 2) q.c3 3)
      w).n_nodes = w.n_nodes := by
  induction visited generalizing w with
  | nil => rfl
  | cons q rest ih =>
    simp only [List.foldl_cons]
    rw [ih]
    simp [n_nodes_drop_quad_ref]

theorem n_nodes_sord_free (st : SordState) :
    (sord_free st).world.n_nodes = st.world.n_nodes := by
  unfold sord_free
  exact n_nodes_drop4_foldl _ _

/-- One public operation never decreases the node count. -/
theorem applyOp_n_nodes_mono (st : SordState) (op : SordOp) :
    st.world.n_nodes ≤ (applyOp st op).world.n_nodes := by
  cases op with
  | newUri buf =>
    show st.world.n_nodes ≤ (sord_new_uri_counted st.world buf buf.length).2.n_nodes
    unfold sord_new_uri_counted
    rcases sord_lookup_name st.world buf with _ | r
    · simp [sord_new_node, sord_add_node]
    · simp [n_nodes_sord_node_copy]
  | newBlank buf =>
    show st.world.n_nodes ≤ (sord_new_blank_counted st.world buf buf.length).2.n_nodes
    unfold sord_new_blank_counted
    rcases sord_lookup_name st.world buf with _ | r
    · simp [sord_new_node, sord_add_node]
    · simp [n_nodes_sord_node_copy]
  | newLiteral dt buf fl lang =>
    show st.world.n_nodes ≤
      (sord_new_literal_counted st.world dt buf buf.length fl lang).2.n_nodes
    unfold sord_new_literal_counted
    rcases h : sord_lookup_literal st.world dt buf lang with ⟨ro, w1⟩
    have hw1 : w1.n_nodes = st.world.n_nodes := by
      have h2 := n_nodes_lookup_literal st.world dt buf lang
      rw [h] at h2
      exact h2
    rcases ro with _ | r
    · rcases hn : sord_new_node w1 .literal buf (buf.length + 1) fl with ⟨r, w2⟩
      have hw2 : w2.n_nodes = w1.n_nodes := by
        have h2 := congrArg (fun p => (Prod.snd p).n_nodes) hn
        exact h2.symm.trans rfl
      rcases hi : sord_intern_lang (sord_node_copy w2 dt) lang with ⟨lc, w4⟩
      have hw4 : w4.n_nodes = w2.n_nodes := by
        have h2 := n_nodes_intern_lang (sord_node_copy w2 dt) lang
        rw [hi] at h2
        exact h2.trans (n_nodes_sord_node_copy w2 dt)
      simp only [hn, hi]
      rcases hf : findNode w4 r with _ | d <;>
        simp [sord_add_node, n_nodes_setNode, hw4, hw2, hw1, hf]
    · simp only []
      rw [n_nodes_sord_node_copy, hw1]
  | internLang tag =>
    show st.world.n_nodes ≤ (sord_intern_lang st.world (some tag)).2.n_nodes
    rw [n_nodes_intern_lang]
  | nodeCopy r =>
    show st.world.n_nodes ≤ (sord_node_copy st.world r).n_nodes
    rw [n_nodes_sord_node_copy]
  | nodeFree r =>
    show st.world.n_nodes ≤ (sord_node_free st.world r).n_nodes
    rw [n_nodes_sord_node_free]
  | modelAdd t =>
    show st.world.n_nodes ≤ (sord_add st t).2.world.n_nodes
    rw [n_nodes_sord_add]
  | modelRemove t =>
    show st.world.n_nodes ≤ (sord_remove st t).world.n_nodes
    rw [n_nodes_sord_remove]
  | modelNew mask graphs => exact le_refl _
  | modelFree =>
    show st.world.n_nodes ≤ (sord_free st).world.n_nodes
    rw [n_nodes_sord_free]

end W

/-- C7: sord_add with a NULL subject, predicate or object prints a
diagnostic and returns false before touching any index, any reference
count or the quad count: the state is returned unchanged. -/
theorem C7_add_null_rejected (st : W.SordState) (t : Tup4)
    (h : t.c0 = 0 ∨ t.c1 = 0 ∨ t.c2 = 0) :
    W.sord_add st t = (false, st) := by
  unfold W.sord_add
  rw [if_pos h]

/-- C7 witness: a NULL-subject tuple on a concrete state. -/
theorem C7_witness :
    W.sord_add ⟨W.sord_world_new, sord_new 0 false⟩ ⟨0, 1, 2, 3⟩ =
      (false, ⟨W.sord_world_new, sord_new 0 false⟩) :=
  C7_add_null_rejected ⟨W.sord_world_new, sord_new 0 false⟩ ⟨0, 1, 2, 3⟩ (Or.inl rfl)

/-- C8: URIs and blank nodes share the single names table keyed only by
the byte string, so sord_new_blank over a string already interned (as a
URI or anything else) returns the existing node pointer with its
reference count bumped and its kind unchanged, and symmetrically
sord_new_uri after sord_new_blank of the same string returns the Blank
node. -/
theorem C8_names_table_shared (w : W.SordWorld) (s : List Nat) (n r : Nat)
    (hr : W.sord_lookup_name w s = some r) (h0 : r ≠ 0) :
    W.sord_new_blank_counted w s n = (r, W.sord_node_copy w r) ∧
    W.sord_new_uri_counted w s n = (r, W.sord_node_copy w r) ∧
    (∀ d, W.findNode w r = some d →
      W.findNode (W.sord_node_copy w r) r = some { d with refs := d.refs + 1 }) ∧
    (W.sord_node_copy w r).n_nodes = w.n_nodes := by
  refine ⟨?_, ?_, ?_, W.n_nodes_sord_node_copy w r⟩
  · unfold W.sord_new_blank_counted
    rw [hr]
  · unfold W.sord_new_uri_counted
    rw [hr]
  · intro d hd
    unfold W.sord_node_copy
    rw [if_neg h0, hd]
    exact W.findNode_setNode_self hd

/-- The world after interning the URI string x once. -/
def wC8 : W.SordWorld := (W.sord_new_uri_counted W.sord_world_new [120] 1).2

/-- C8 witness: after interning URI x, sord_new_blank of the same string
returns the same node, still of kind URI, with its reference count now
2. -/
theorem C8_witness :
    W.sord_new_blank_counted wC8 [120] 1 = (1, W.sord_node_copy wC8 1) ∧
    (W.findNode (W.sord_new_blank_counted wC8 [120] 1).2 1).map
      (fun d => (d.ntype, d.refs)) = some (W.SordNodeType.uri, 2) := by
  have h := C8_names_table_shared wC8 [120] 1 1 (by decide) (by decide)
  exact ⟨h.1, by decide⟩

/-- C9: for every model with its mandatory SPO index and every pattern
with a NULL graph, the order chosen by sord_best_index is materialized
(so sord_find never dereferences a missing sequence); and with a bound
graph the choice can be the GSPO order even in a model that never
materialized it, as the concrete empty-mask model shows. -/
theorem rangeOnly_order_present (m : SordModel) (g0 g1 np : Nat)
    (hSPO : (getIndex m 0).isSome) :
    (getIndex m (rangeOnly m false g0 g1 np).order).isSome := by
  unfold rangeOnly sord_has_index
  simp only [Bool.false_eq_true, if_false, ite_false]
  split_ifs <;> simp_all

theorem rangeFilter_order_present (m : SordModel) (g0 g1 np f0 f1 : Nat)
    (hSPO : (getIndex m 0).isSome) :
    (getIndex m (rangeFilter m false g0 g1 np f0 f1).order).isSome := by
  unfold rangeFilter sord_has_index
  simp only [Bool.false_eq_true, if_false, ite_false]
  split_ifs <;> simp_all

theorem C9_chosen_index_present :
    (∀ (m : SordModel) (pat : Tup4), (getIndex m 0).isSome → pat.c3 = 0 →
      (getIndex m (sord_best_index m pat).order).isSome) ∧
    ((sord_best_index (sord_new 0 false) ⟨1, 2, 3, 7⟩).order = 6 ∧
      getIndex (sord_new 0 false) 6 = none) := by
  constructor
  · intro m pat hSPO h3
    by_cases h0 : pat.c0 = 0 <;> by_cases h1 : pat.c1 = 0 <;>
      by_cases h2 : pat.c2 = 0 <;>
      simp only [sord_best_index, h3] <;>
      simp [h0, h1, h2] <;>
      first
        | exact hSPO
        | exact rangeOnly_order_present m _ _ _ hSPO
        | exact rangeFilter_order_present m _ _ _ _ _ hSPO
  · exact ⟨by decide, by decide⟩

/-- C9 witness: a concrete model (SPO plus OPS) and triple pattern on
which the chosen order is materialized. -/
theorem C9_witness :
    (getIndex (sord_new 5 false)
      (sord_best_index (sord_new 5 false) ⟨0, 0, 9, 0⟩).order).isSome :=
  C9_chosen_index_present.1 (sord_new 5 false) ⟨0, 0, 9, 0⟩ (by decide) (by decide)

/-- C10: across every sequence of world and model operations the node
count sord_num_nodes reports is non-decreasing: sord_add_node increments
it for each freshly interned node and nothing (not even destroying a node
whose reference count reached zero) ever decrements it. -/
theorem C10_node_count_monotone (st : W.SordState) (ops : List W.SordOp) :
    st.world.n_nodes ≤ ((ops.foldl W.applyOp st).world.n_nodes) := by
  induction ops generalizing st with
  | nil => exact le_refl _
  | cons op rest ih =>
    simp only [List.foldl_cons]
    exact le_trans (W.applyOp_n_nodes_mono st op) (ih (W.applyOp st op))

end Sord
